import Mathlib

/-!
Verification of `anonymize_log.py` (host pseudonymization and referrer
sanitization for Apache access logs).

The Lean definitions below are a shallow embedding of the Python source:
pure helpers become Lean functions on `List Char` / `String`, the
process-wide host cache becomes an explicit association list threaded
through `anonymize_host`, and the external DNS resolver becomes an
explicit oracle record.  Network activity is made observable as a list of
`DnsCall` values returned alongside the result.
-/

namespace AnonLog

/-! ## Generic list and string helpers -/

/-- Lookup in an association list; the first binding for a key wins, so
`mapInsert` (cons) models overwriting insertion of a Python `dict`. -/
def mapFind (m : List (String × String)) (k : String) : Option String :=
  match m with
  | [] => none
  | (a, b) :: t => if a = k then some b else mapFind t k

/-- Insertion into the association-list model of a Python `dict`:
consing shadows any previous binding. -/
def mapInsert (m : List (String × String)) (k v : String) : List (String × String) :=
  (k, v) :: m

/-- Model of the cache type of `host_map`. -/
abbrev HostMap := List (String × String)

@[simp] theorem mapFind_nil (k : String) : mapFind [] k = none := rfl

@[simp] theorem mapFind_cons (a b : String) (t : HostMap) (k : String) :
    mapFind ((a, b) :: t) k = if a = k then some b else mapFind t k := rfl

@[simp] theorem mapFind_insert (m : HostMap) (k v k' : String) :
    mapFind (mapInsert m k v) k' = if k = k' then some v else mapFind m k' := rfl

/-! ## UTF-8 encoding (model of Python `str.encode()`) -/

/-- UTF-8 encoding of a single code point, as a list of byte values. -/
def utf8Char (c : Char) : List Nat :=
  let n := c.toNat
  if n < 128 then [n]
  else if n < 2048 then [192 + n / 64, 128 + n % 64]
  else if n < 65536 then [224 + n / 4096, 128 + n / 64 % 64, 128 + n % 64]
  else [240 + n / 262144, 128 + n / 4096 % 64, 128 + n / 64 % 64, 128 + n % 64]

/-- UTF-8 encoding of a string, modelling Python `s.encode()`. -/
def utf8Bytes (s : String) : List Nat :=
  (s.data.map utf8Char).flatten

/-! ## MD5 (model of Python `hashlib.md5(...).hexdigest()`)

The algorithm follows RFC 1321: pad the message, process 64-byte chunks
with 64 rounds each, output the four accumulator words as little-endian
bytes in lowercase hex. -/

/-- Modulus for 32-bit arithmetic. -/
def M32 : Nat := 4294967296

/-- Left rotation of a 32-bit word. -/
def rotl32 (x n : Nat) : Nat :=
  ((x <<< n) % M32) ||| (x >>> (32 - n))

/-- Per-round additive constants of MD5 (RFC 1321 table T). -/
def md5K : List Nat :=
  [0xd76aa478, 0xe8c7b756, 0x242070db, 0xc1bdceee,
   0xf57c0faf, 0x4787c62a, 0xa8304613, 0xfd469501,
   0x698098d8, 0x8b44f7af, 0xffff5bb1, 0x895cd7be,
   0x6b901122, 0xfd987193, 0xa679438e, 0x49b40821,
   0xf61e2562, 0xc040b340, 0x265e5a51, 0xe9b6c7aa,
   0xd62f105d, 0x02441453, 0xd8a1e681, 0xe7d3fbc8,
   0x21e1cde6, 0xc33707d6, 0xf4d50d87, 0x455a14ed,
   0xa9e3e905, 0xfcefa3f8, 0x676f02d9, 0x8d2a4c8a,
   0xfffa3942, 0x8771f681, 0x6d9d6122, 0xfde5380c,
   0xa4beea44, 0x4bdecfa9, 0xf6bb4b60, 0xbebfbc70,
   0x289b7ec6, 0xeaa127fa, 0xd4ef3085, 0x04881d05,
   0xd9d4d039, 0xe6db99e5, 0x1fa27cf8, 0xc4ac5665,
   0xf4292244, 0x432aff97, 0xab9423a7, 0xfc93a039,
   0x655b59c3, 0x8f0ccc92, 0xffeff47d, 0x85845dd1,
   0x6fa87e4f, 0xfe2ce6e0, 0xa3014314, 0x4e0811a1,
   0xf7537e82, 0xbd3af235, 0x2ad7d2bb, 0xeb86d391]

/-- Per-round left-rotation amounts of MD5. -/
def md5S : List Nat :=
  [7, 12, 17, 22, 7, 12, 17, 22, 7, 12, 17, 22, 7, 12, 17, 22,
   5, 9, 14, 20, 5, 9, 14, 20, 5, 9, 14, 20, 5, 9, 14, 20,
   4, 11, 16, 23, 4, 11, 16, 23, 4, 11, 16, 23, 4, 11, 16, 23,
   6, 10, 15, 21, 6, 10, 15, 21, 6, 10, 15, 21, 6, 10, 15, 21]

/-- Nonlinear round function of MD5 (F, G, H, I depending on the round). -/
def md5F (i b c d : Nat) : Nat :=
  if i < 16 then (b &&& c) ||| ((M32 - 1 - b) &&& d)
  else if i < 32 then (d &&& b) ||| ((M32 - 1 - d) &&& c)
  else if i < 48 then b ^^^ c ^^^ d
  else c ^^^ (b ||| (M32 - 1 - d))

/-- Message-word index schedule of MD5. -/
def md5G (i : Nat) : Nat :=
  if i < 16 then i
  else if i < 32 then (5 * i + 1) % 16
  else if i < 48 then (3 * i + 5) % 16
  else (7 * i) % 16

/-- One MD5 round applied to the state `(a, b, c, d)`. -/
def md5Round (msg : List Nat) (st : Nat × Nat × Nat × Nat) (i : Nat) :
    Nat × Nat × Nat × Nat :=
  let (a, b, c, d) := st
  let f := (md5F i b c d + a + md5K.getD i 0 + msg.getD (md5G i) 0) % M32
  (d, (b + rotl32 f (md5S.getD i 0)) % M32, b, c)

/-- Grouping of a byte list into little-endian 32-bit words. -/
def leWords : List Nat → List Nat
  | b0 :: b1 :: b2 :: b3 :: rest =>
      (b0 + 256 * b1 + 65536 * b2 + 16777216 * b3) :: leWords rest
  | _ => []

/-- Processing of one 64-byte chunk. -/
def md5Chunk (st : Nat × Nat × Nat × Nat) (chunk : List Nat) :
    Nat × Nat × Nat × Nat :=
  let m := leWords chunk
  let (a, b, c, d) := (List.range 64).foldl (md5Round m) st
  ((st.1 + a) % M32, (st.2.1 + b) % M32, (st.2.2.1 + c) % M32, (st.2.2.2 + d) % M32)

/-- Fuelled iteration over the 64-byte chunks of the padded message; the
fuel is instantiated with the message length, which bounds the number of
chunks, so the fuel never runs out. -/
def md5Chunks : Nat → (Nat × Nat × Nat × Nat) → List Nat → Nat × Nat × Nat × Nat
  | _, st, [] => st
  | 0, st, _ => st
  | fuel + 1, st, bytes => md5Chunks fuel (md5Chunk st (bytes.take 64)) (bytes.drop 64)

/-- Little-endian byte decomposition of a 64-bit value. -/
def le8 (n : Nat) : List Nat :=
  [n % 256, n / 256 % 256, n / 65536 % 256, n / 16777216 % 256,
   n / 4294967296 % 256, n / 1099511627776 % 256,
   n / 281474976710656 % 256, n / 72057594037927936 % 256]

/-- Little-endian byte decomposition of a 32-bit word. -/
def le4 (n : Nat) : List Nat :=
  [n % 256, n / 256 % 256, n / 65536 % 256, n / 16777216 % 256]

/-- MD5 padding: a `0x80` byte, zero bytes up to 56 mod 64, then the
original bit length as 8 little-endian bytes. -/
def md5Pad (msg : List Nat) : List Nat :=
  msg ++ 128 :: List.replicate ((119 - msg.length % 64) % 64) 0
      ++ le8 (msg.length * 8 % 18446744073709551616)

/-- MD5 digest of a byte list, as the usual 16 bytes. -/
def md5Bytes (msg : List Nat) : List Nat :=
  let padded := md5Pad msg
  let st := md5Chunks padded.length
    (0x67452301, 0xefcdab89, 0x98badcfe, 0x10325476) padded
  le4 st.1 ++ le4 st.2.1 ++ le4 st.2.2.1 ++ le4 st.2.2.2

/-- Lowercase hexadecimal alphabet. -/
def hexChars : List Char := "0123456789abcdef".data

/-- Hexadecimal digit for a value below 16. -/
def hexDigit (n : Nat) : Char := hexChars.getD n '0'

/-- Two lowercase hex characters for one byte. -/
def hexByte (b : Nat) : List Char := [hexDigit (b / 16 % 16), hexDigit (b % 16)]

/-- Model of Python `hashlib.md5((s).encode()).hexdigest()`. -/
def md5hex (s : String) : String :=
  String.mk ((md5Bytes (utf8Bytes s)).map hexByte).flatten

/-- Helper: `List.getD` lands in the list or is the default. -/
theorem getD_mem_or {α : Type} (l : List α) (n : Nat) (d : α) :
    l.getD n d ∈ l ∨ l.getD n d = d := by
  induction l generalizing n with
  | nil => right; rfl
  | cons a t ih =>
    cases n with
    | zero => left; simp [List.getD]
    | succ k =>
      rcases ih k with h | h
      · left
        simp only [List.getD] at h ⊢
        exact List.mem_cons_of_mem a (by simpa using h)
      · right; simpa [List.getD] using h

theorem hexDigit_mem (n : Nat) : hexDigit n ∈ hexChars := by
  rcases getD_mem_or hexChars n '0' with h | h
  · exact h
  · unfold hexDigit
    rw [h]
    decide

/-- Length of the hex digest: 16 bytes, 2 characters each. -/
theorem md5hex_length (s : String) : (md5hex s).length = 32 := by
  show ((md5Bytes (utf8Bytes s)).map hexByte).flatten.length = 32
  simp [md5Bytes, le4, hexByte]

/-- Every character of the hex digest is a lowercase hex character. -/
theorem md5hex_chars (s : String) : ∀ c ∈ (md5hex s).data, c ∈ hexChars := by
  intro c hc
  simp only [md5hex, List.mem_flatten, List.mem_map] at hc
  obtain ⟨l, ⟨b, _, rfl⟩, hcl⟩ := hc
  simp only [hexByte, List.mem_cons, List.not_mem_nil, or_false] at hcl
  rcases hcl with rfl | rfl
  · exact hexDigit_mem _
  · exact hexDigit_mem _

/-! ## Character-level splitting and searching -/

/-- Python-style split on every occurrence of a character: empty pieces
are kept and the result is never empty (`''.split(sep) == ['']`). -/
def splitChar (sep : Char) : List Char → List (List Char)
  | [] => [[]]
  | c :: cs =>
    let r := splitChar sep cs
    if c = sep then [] :: r
    else
      match r with
      | [] => [[c]]
      | h :: t => (c :: h) :: t

/-- Model of Python `str.find(sub, start)` scanning the suffix from
position `i` of the original string; returns the absolute index of the
first occurrence. -/
def findSubAux (pat : List Char) : List Char → Nat → Option Nat
  | [], i => if pat.isEmpty then some i else none
  | c :: cs, i => if pat.isPrefixOf (c :: cs) then some i else findSubAux pat cs (i + 1)

/-- Model of Python `str.find(sub, start)` (with `none` for `-1`). -/
def findSub (l pat : List Char) (start : Nat) : Option Nat :=
  findSubAux pat (l.drop start) start

/-- Boolean membership of a character in a character list. -/
def chIn (c : Char) (l : List Char) : Bool := decide (c ∈ l)

@[simp] theorem chIn_iff (c : Char) (l : List Char) : chIn c l = true ↔ c ∈ l := by
  simp [chIn]

/-! ## IP-literal grammars (embedding of the regexes `creIPv4`, `creIPv6`)

`reIPv4` is `O\.O\.O\.O` (full match) with octet
`O = [0-9]|[1-9][0-9]|1[0-9]{2}|2[0-4][0-9]|25[0-5]`.  Since an octet
contains no dot, a string matches exactly when splitting on `'.'` yields
four octets; `isOctet` transcribes the five alternatives by length.

`reIPv6` is `G:G:G:G:G:G:G:G` (eight groups) or the compressed form
`(:|(G:){1,6})(:|(:G){1,6})` with group `G = 0|[1-9a-f][0-9a-f]{0,3}`.
Every string of the compressed language contains exactly one `"::"`
(groups are nonempty and colon-free), and splitting there leaves 0–6
groups joined by single colons on each side; `isIPv6Comp` transcribes
this. -/

/-- Decimal digits (character class `[0-9]`). -/
def d09 : List Char := "0123456789".data

/-- Character class `[1-9]`. -/
def d19 : List Char := "123456789".data

/-- Character class `[0-4]`. -/
def d04 : List Char := "01234".data

/-- Character class `[0-5]`. -/
def d05 : List Char := "012345".data

/-- Character class `[0-9a-f]` (lowercase hex). -/
def hexLow : List Char := d09 ++ "abcdef".data

/-- Character class `[1-9a-f]` (lowercase hex without zero). -/
def hexLowNZ : List Char := d19 ++ "abcdef".data

/-- Octet alternation of `reIPv4`, by length of the candidate. -/
def isOctet : List Char → Bool
  | [c] => chIn c d09
  | [c1, c2] => chIn c1 d19 && chIn c2 d09
  | [c1, c2, c3] =>
      (c1 == '1' && chIn c2 d09 && chIn c3 d09) ||
      (c1 == '2' && chIn c2 d04 && chIn c3 d09) ||
      (c1 == '2' && c2 == '5' && chIn c3 d05)
  | _ => false

/-- Full-match of `creIPv4`. -/
def isIPv4 (s : String) : Bool :=
  match splitChar '.' s.data with
  | [a, b, c, d] => isOctet a && isOctet b && isOctet c && isOctet d
  | _ => false

/-- Group alternation `0|[1-9a-f][0-9a-f]{0,3}` of `reIPv6`. -/
def isGroup : List Char → Bool
  | [] => false
  | c :: rest =>
      (c == '0' && rest.isEmpty) ||
      (chIn c hexLowNZ && decide (rest.length ≤ 3) && rest.all (fun x => chIn x hexLow))

/-- Full 8-group alternative of `reIPv6`. -/
def isIPv6Full (cs : List Char) : Bool :=
  let parts := splitChar ':' cs
  parts.length == 8 && parts.all isGroup

/-- Side of a `"::"` compression: empty, or 1–6 colon-joined groups. -/
def sideOK (cs : List Char) : Bool :=
  cs.isEmpty ||
    (let parts := splitChar ':' cs
     decide (parts.length ≤ 6) && parts.all isGroup)

/-- Compressed alternative `(:|(G:){1,6})(:|(:G){1,6})` of `reIPv6`. -/
def isIPv6Comp (cs : List Char) : Bool :=
  match findSub cs [':', ':'] 0 with
  | none => false
  | some p => sideOK (cs.take p) && sideOK (cs.drop (p + 2))

/-- Full-match of `creIPv6`. -/
def isIPv6 (s : String) : Bool := isIPv6Full s.data || isIPv6Comp s.data

/-! ## Host pseudonymization (`anonymize_host`) -/

/-- Suffix after the last dot of a hostname, if any dot is present. -/
def lastLabel : List Char → Option (List Char)
  | [] => none
  | c :: cs =>
    match lastLabel cs with
    | some t => some t
    | none => if c = '.' then some cs else none

/-- Model of `_tld`: `"." + last dot-separated label` when the name
contains a dot, the empty string otherwise (Python
`hostname.rsplit('.', 1)`). -/
def tld (s : String) : String :=
  match lastLabel s.data with
  | none => ""
  | some t => String.mk ('.' :: t)

/-- External DNS collaborator: `reverse` models
`socket.gethostbyaddr` returning `(hostname, aliaslist, ipaddrlist)` and
`none` on `herror`; `forward` models
`socket.getaddrinfo(host, None, proto=IPPROTO_TCP)` reduced to the list
of address strings `rec[4][0]`, with `none` on `gaierror`/`ValueError`. -/
structure DNS where
  reverse : String → Option (String × List String × List String)
  forward : String → Option (List String)

/-- One observable network call issued during host resolution. -/
inductive DnsCall where
  | reverse (host : String)
  | forward (host : String)
deriving DecidableEq

/-- Scan of the equivalence class for an already-cached member other
than the original token (the `for key in keys` loop with its `break`). -/
def findCached (m : HostMap) (host : String) : List String → Option String
  | [] => none
  | k :: ks =>
    if k ≠ host then
      match mapFind m k with
      | some r => some r
      | none => findCached m host ks
    else findCached m host ks

/-- Cache write-back of every member of the equivalence class
(`for key in keys: host_map[key] = result`). -/
def insertAll (m : HostMap) (keys : List String) (r : String) : HostMap :=
  keys.foldl (fun acc k => mapInsert acc k r) m

/-- Model of `anonymize_host`, with the mutable global `host_map`
threaded explicitly and the DNS traffic returned as a trace. -/
def anonymize_host (dns : DNS) (salt : String) (m : HostMap) (host : String) :
    String × HostMap × List DnsCall :=
  match mapFind m host with
  | some r => (r, m, [])
  | none =>
    if isIPv4 host || isIPv6 host then
      match dns.reverse host with
      | none =>
        let result := md5hex (host ++ salt) ++ ".ip"
        (result, mapInsert m host result, [.reverse host])
      | some (hostname, aliaslist, ipaddrlist) =>
        let keys := hostname :: aliaslist ++ ipaddrlist
        let result := (findCached m host keys).getD (md5hex (hostname ++ salt) ++ tld hostname)
        (result, insertAll m keys result, [.reverse host])
    else
      match dns.forward host with
      | none =>
        let result := md5hex (host ++ salt) ++ tld host
        (result, mapInsert m host result, [.forward host])
      | some addrs =>
        let keys := host :: addrs
        let result := (findCached m host keys).getD (md5hex (host ++ salt) ++ tld host)
        (result, insertAll m keys result, [.forward host])

/-- Initial cache seeding (`host_map` literal in the source). -/
def host_map0 : HostMap :=
  [("127.0.0.1", "localhost"), ("::1", "localhost"), ("localhost", "localhost")]

/-- C7: against the initial cache, resolving `"127.0.0.1"`, `"::1"` and
`"localhost"` each returns the literal string `"localhost"`, leaves the
cache unchanged and performs zero network calls, for every salt and
every behaviour of the DNS collaborator. -/
theorem seeded_identities (dns : DNS) (salt : String) :
    anonymize_host dns salt host_map0 "127.0.0.1" = ("localhost", host_map0, []) ∧
    anonymize_host dns salt host_map0 "::1" = ("localhost", host_map0, []) ∧
    anonymize_host dns salt host_map0 "localhost" = ("localhost", host_map0, []) := by
  refine ⟨?_, ?_, ?_⟩ <;> rfl

/-! ## Structure lemmas for `anonymize_host` -/

@[simp] theorem mapFind_insertAll (m : HostMap) (keys : List String) (r k : String) :
    mapFind (insertAll m keys r) k = if k ∈ keys then some r else mapFind m k := by
  induction keys generalizing m with
  | nil => simp [insertAll]
  | cons k0 ks ih =>
    show mapFind (insertAll (mapInsert m k0 r) ks r) k = _
    rw [ih]
    by_cases hks : k ∈ ks
    · simp [hks]
    · by_cases hk0 : k0 = k
      · subst hk0
        simp [hks]
      · have hkk0 : ¬k = k0 := fun h => hk0 h.symm
        simp [hks, hk0, hkk0]

theorem findCached_none (m : HostMap) (host : String) (keys : List String)
    (h : ∀ k ∈ keys, mapFind m k = none) : findCached m host keys = none := by
  induction keys with
  | nil => rfl
  | cons k ks ih =>
    unfold findCached
    by_cases hk : k ≠ host
    · rw [if_pos hk, h k (by simp)]
      exact ih fun x hx => h x (by simp [hx])
    · rw [if_neg hk]
      exact ih fun x hx => h x (by simp [hx])

theorem findCached_some (m : HostMap) (host r : String) (keys : List String)
    (hall : ∀ k ∈ keys, k ≠ host → mapFind m k = none ∨ mapFind m k = some r)
    (hex : ∃ x ∈ keys, x ≠ host ∧ mapFind m x = some r) :
    findCached m host keys = some r := by
  induction keys with
  | nil => obtain ⟨x, hx, -⟩ := hex; cases hx
  | cons k ks ih =>
    unfold findCached
    by_cases hk : k ≠ host
    · rw [if_pos hk]
      rcases hall k (by simp) hk with hnone | hsome
      · rw [hnone]
        refine ih (fun x hx hxh => hall x (by simp [hx]) hxh) ?_
        obtain ⟨x, hx, hxh, hxf⟩ := hex
        rcases List.mem_cons.mp hx with rfl | hx'
        · rw [hnone] at hxf; cases hxf
        · exact ⟨x, hx', hxh, hxf⟩
      · rw [hsome]
    · rw [if_neg hk]
      push_neg at hk
      subst hk
      refine ih (fun x hx hxh => hall x (by simp [hx]) hxh) ?_
      obtain ⟨x, hx, hxh, hxf⟩ := hex
      rcases List.mem_cons.mp hx with rfl | hx'
      · exact absurd rfl hxh
      · exact ⟨x, hx', hxh, hxf⟩

/-- Equivalence class and canonical name produced by a successful DNS
resolution of a token, as computed by `anonymize_host`. -/
def classKeys (dns : DNS) (h : String) : Option (String × List String) :=
  if isIPv4 h || isIPv6 h then
    (dns.reverse h).map (fun x => (x.1, x.1 :: x.2.1 ++ x.2.2))
  else
    (dns.forward h).map (fun ad => (h, h :: ad))

/-- Kind of network call issued for an uncached token. -/
def callOf (h : String) : DnsCall :=
  if isIPv4 h || isIPv6 h then .reverse h else .forward h

theorem anonymize_host_success (dns : DNS) (salt : String) (m : HostMap)
    (h hn : String) (keys : List String) (hm : mapFind m h = none)
    (hc : classKeys dns h = some (hn, keys)) :
    anonymize_host dns salt m h =
      ((findCached m h keys).getD (md5hex (hn ++ salt) ++ tld hn),
       insertAll m keys ((findCached m h keys).getD (md5hex (hn ++ salt) ++ tld hn)),
       [callOf h]) := by
  cases hip : isIPv4 h || isIPv6 h with
  | false =>
    unfold classKeys at hc
    rw [hip] at hc
    simp only [Bool.false_eq_true, if_false, Option.map_eq_some'] at hc
    obtain ⟨ad, hfwd, heq⟩ := hc
    simp only [Prod.mk.injEq] at heq
    obtain ⟨rfl, rfl⟩ := heq
    unfold anonymize_host callOf
    rw [hm, hip]
    simp [hfwd]
  | true =>
    unfold classKeys at hc
    rw [hip] at hc
    simp only [if_true, Option.map_eq_some'] at hc
    obtain ⟨⟨a, al, ad⟩, hrev, heq⟩ := hc
    simp only [Prod.mk.injEq] at heq
    obtain ⟨rfl, rfl⟩ := heq
    unfold anonymize_host callOf
    rw [hm, hip]
    simp [hrev]

/-- Cached-token short-circuit of `anonymize_host` (step 1). -/
theorem anonymize_host_cached (dns : DNS) (salt : String) (m : HostMap)
    (h r : String) (hm : mapFind m h = some r) :
    anonymize_host dns salt m h = (r, m, []) := by
  simp only [anonymize_host, hm]

/-- After any call, the input token maps to the returned pseudonym,
provided reverse DNS answers list the queried address among their
addresses (the source's stated assumption "host is included in
ipaddrlist"). -/
theorem anonymize_host_caches_token (dns : DNS) (salt : String) (m : HostMap) (host : String)
    (hdns : ∀ ip hn al ad, dns.reverse ip = some (hn, al, ad) → ip ∈ ad) :
    mapFind (anonymize_host dns salt m host).2.1 host = some (anonymize_host dns salt m host).1 := by
  unfold anonymize_host
  cases hm : mapFind m host with
  | some r => simp [hm]
  | none =>
    cases hip : isIPv4 host || isIPv6 host with
    | false =>
      cases hfwd : dns.forward host with
      | none => simp [hfwd]
      | some ad => simp [hfwd]
    | true =>
      cases hrev : dns.reverse host with
      | none => simp [hrev]
      | some x =>
        obtain ⟨hn, al, ad⟩ := x
        have hmem : host ∈ hn :: al ++ ad := by
          simpa using Or.inr (Or.inr (hdns host hn al ad hrev))
        simp [hrev, hmem]
        intro h1 h2 h3
        rcases List.mem_cons.mp hmem with h | h
        · exact absurd h h1
        · rcases List.mem_append.mp h with h | h
          · exact absurd h h2
          · exact absurd h h3

/-- C2: resolving the same token twice in succession with the same salt,
carrying the cache from the first call into the second, returns the
identical pseudonym both times, leaves the cache unchanged, and the
second call issues no DNS lookup; the reverse-DNS oracle is assumed to
list the queried address among the returned addresses, the assumption
the source records as "assuming host is included in ipaddrlist". -/
theorem resolve_idempotent (dns : DNS) (salt : String) (m : HostMap) (host : String)
    (hdns : ∀ ip hn al ad, dns.reverse ip = some (hn, al, ad) → ip ∈ ad) :
    anonymize_host dns salt (anonymize_host dns salt m host).2.1 host =
      ((anonymize_host dns salt m host).1, (anonymize_host dns salt m host).2.1, []) :=
  anonymize_host_cached _ _ _ _ _ (anonymize_host_caches_token dns salt m host hdns)

/-- Witness for C2 at a concrete oracle and token. -/
theorem resolve_idempotent_witness :
    (let dns : DNS := ⟨fun _ => none, fun _ => none⟩
     anonymize_host dns "s" (anonymize_host dns "s" host_map0 "203.0.113.9").2.1 "203.0.113.9" =
      ((anonymize_host dns "s" host_map0 "203.0.113.9").1,
       (anonymize_host dns "s" host_map0 "203.0.113.9").2.1, [])) :=
  resolve_idempotent ⟨fun _ => none, fun _ => none⟩ "s" host_map0 "203.0.113.9"
    (fun ip hn al ad h => by cases h)

/-! ## Characterization of `tld` and the failure fallbacks (C3) -/

theorem lastLabel_none_iff (cs : List Char) : lastLabel cs = none ↔ '.' ∉ cs := by
  induction cs with
  | nil => simp [lastLabel]
  | cons c cs ih =>
    unfold lastLabel
    cases h : lastLabel cs with
    | some t =>
      have hmem : '.' ∈ cs := by
        by_contra hd
        have hnone := ih.mpr hd
        rw [hnone] at h
        cases h
      simp [hmem]
    | none =>
      have hni : '.' ∉ cs := ih.mp h
      by_cases hc : c = '.'
      · subst hc; simp
      · simp [hc, hni, Ne.symm hc]

theorem lastLabel_some (cs t : List Char) (h : lastLabel cs = some t) :
    ∃ pre, cs = pre ++ '.' :: t ∧ '.' ∉ t := by
  induction cs generalizing t with
  | nil => cases h
  | cons c cs ih =>
    unfold lastLabel at h
    cases h2 : lastLabel cs with
    | some t2 =>
      simp only [h2] at h
      cases h
      obtain ⟨pre, hpre, hnd⟩ := ih _ h2
      exact ⟨c :: pre, by rw [hpre]; rfl, hnd⟩
    | none =>
      simp only [h2] at h
      by_cases hc : c = '.'
      · rw [if_pos hc] at h
        cases h
        subst hc
        exact ⟨[], rfl, (lastLabel_none_iff cs).mp h2⟩
      · rw [if_neg hc] at h
        cases h

/-- C3: on DNS failure, an IP literal gets the pseudonym
`md5hex(ip + salt) + ".ip"` (a 32-hex-character digest plus `".ip"`) and
only the token itself is written to the cache; a hostname gets
`md5hex(hostname + salt) + TLD(hostname)` and only the token itself is
cached, where `TLD(name)` is `"."` plus the last dot-separated label
when `name` contains a dot and the empty string otherwise. -/
theorem fallback_forms :
    (∀ (dns : DNS) (salt : String) (m : HostMap) (host : String),
      mapFind m host = none → (isIPv4 host || isIPv6 host) = true →
      dns.reverse host = none →
      anonymize_host dns salt m host =
        (md5hex (host ++ salt) ++ ".ip",
         mapInsert m host (md5hex (host ++ salt) ++ ".ip"), [DnsCall.reverse host]) ∧
      (md5hex (host ++ salt)).length = 32 ∧
      (∀ c ∈ (md5hex (host ++ salt)).data, c ∈ hexChars) ∧
      (∀ k, k ≠ host → mapFind (anonymize_host dns salt m host).2.1 k = mapFind m k)) ∧
    (∀ (dns : DNS) (salt : String) (m : HostMap) (host : String),
      mapFind m host = none → (isIPv4 host || isIPv6 host) = false →
      dns.forward host = none →
      anonymize_host dns salt m host =
        (md5hex (host ++ salt) ++ tld host,
         mapInsert m host (md5hex (host ++ salt) ++ tld host), [DnsCall.forward host]) ∧
      (∀ k, k ≠ host → mapFind (anonymize_host dns salt m host).2.1 k = mapFind m k)) ∧
    (∀ host : String,
      ('.' ∈ host.data → ∃ pre lab, host.data = pre ++ '.' :: lab ∧ '.' ∉ lab ∧
        tld host = String.mk ('.' :: lab)) ∧
      ('.' ∉ host.data → tld host = "")) := by
  refine ⟨?_, ?_, ?_⟩
  · intro dns salt m host hm hip hrev
    have heq : anonymize_host dns salt m host =
        (md5hex (host ++ salt) ++ ".ip",
         mapInsert m host (md5hex (host ++ salt) ++ ".ip"), [DnsCall.reverse host]) := by
      unfold anonymize_host
      rw [hm, hip, hrev]
      rfl
    refine ⟨heq, md5hex_length _, md5hex_chars _, ?_⟩
    intro k hk
    rw [heq]
    simp only [mapFind_insert]
    rw [if_neg (fun h => hk h.symm)]
  · intro dns salt m host hm hip hfwd
    have heq : anonymize_host dns salt m host =
        (md5hex (host ++ salt) ++ tld host,
         mapInsert m host (md5hex (host ++ salt) ++ tld host), [DnsCall.forward host]) := by
      unfold anonymize_host
      rw [hm, hip, hfwd]
      rfl
    refine ⟨heq, ?_⟩
    intro k hk
    rw [heq]
    simp only [mapFind_insert]
    rw [if_neg (fun h => hk h.symm)]
  · intro host
    constructor
    · intro hdot
      cases h : lastLabel host.data with
      | none => exact absurd ((lastLabel_none_iff _).mp h) (by simpa using hdot)
      | some t =>
        obtain ⟨pre, hpre, hnd⟩ := lastLabel_some _ _ h
        exact ⟨pre, t, hpre, hnd, by simp [tld, h]⟩
    · intro hdot
      rw [tld, (lastLabel_none_iff _).mpr hdot]

/-- Witness for C3 at a concrete all-failing oracle, one IP literal and
one hostname. -/
theorem fallback_forms_witness :
    anonymize_host ⟨fun _ => none, fun _ => none⟩ "s" host_map0 "203.0.113.9" =
      (md5hex ("203.0.113.9" ++ "s") ++ ".ip",
       mapInsert host_map0 "203.0.113.9" (md5hex ("203.0.113.9" ++ "s") ++ ".ip"),
       [DnsCall.reverse "203.0.113.9"]) ∧
    anonymize_host ⟨fun _ => none, fun _ => none⟩ "s" host_map0 "www.example.org" =
      (md5hex ("www.example.org" ++ "s") ++ tld "www.example.org",
       mapInsert host_map0 "www.example.org" (md5hex ("www.example.org" ++ "s") ++ tld "www.example.org"),
       [DnsCall.forward "www.example.org"]) :=
  ⟨(fallback_forms.1 ⟨fun _ => none, fun _ => none⟩ "s" host_map0 "203.0.113.9"
      (by decide) (by decide) rfl).1,
   (fallback_forms.2.1 ⟨fun _ => none, fun _ => none⟩ "s" host_map0 "www.example.org"
      (by decide) (by decide) rfl).1⟩

/-! ## Equivalence merging (C1) -/

theorem merge_step (dns : DNS) (salt : String) (m0 : HostMap)
    (A B hnA hnB x : String) (KA KB : List String)
    (hA : classKeys dns A = some (hnA, KA)) (hB : classKeys dns B = some (hnB, KB))
    (hxA : x ∈ KA) (hxB : x ∈ KB) (hAK : A ∈ KA) (hBK : B ∈ KB)
    (hmA : ∀ k ∈ KA, mapFind m0 k = none) (hmB : ∀ k ∈ KB, mapFind m0 k = none)
    (hA0 : mapFind m0 A = none) (hB0 : mapFind m0 B = none) :
    (anonymize_host dns salt (anonymize_host dns salt m0 A).2.1 B).1 =
      (anonymize_host dns salt m0 A).1 ∧
    mapFind (anonymize_host dns salt (anonymize_host dns salt m0 A).2.1 B).2.1 A =
      some (anonymize_host dns salt m0 A).1 ∧
    mapFind (anonymize_host dns salt (anonymize_host dns salt m0 A).2.1 B).2.1 B =
      some (anonymize_host dns salt m0 A).1 := by
  have h1 := anonymize_host_success dns salt m0 A hnA KA hA0 hA
  rw [findCached_none _ _ _ hmA] at h1
  simp only [Option.getD_none] at h1
  rw [h1]
  simp only
  by_cases hBA : B ∈ KA
  · have hfB : mapFind (insertAll m0 KA (md5hex (hnA ++ salt) ++ tld hnA)) B =
        some (md5hex (hnA ++ salt) ++ tld hnA) := by simp [hBA]
    rw [anonymize_host_cached dns salt _ B _ hfB]
    exact ⟨rfl, by simp [hAK], by simp [hBA]⟩
  · have hfB : mapFind (insertAll m0 KA (md5hex (hnA ++ salt) ++ tld hnA)) B = none := by
      simp [hBA, hB0]
    have h2 := anonymize_host_success dns salt _ B hnB KB hfB hB
    have hfc2 : findCached (insertAll m0 KA (md5hex (hnA ++ salt) ++ tld hnA)) B KB =
        some (md5hex (hnA ++ salt) ++ tld hnA) := by
      apply findCached_some
      · intro k hk _
        by_cases hkA : k ∈ KA
        · right; simp [hkA]
        · left; simp [hkA, hmB k hk]
      · exact ⟨x, hxB, fun hxeq => hBA (hxeq ▸ hxA), by simp [hxA]⟩
    rw [hfc2] at h2
    simp only [Option.getD_some] at h2
    rw [h2]
    refine ⟨rfl, ?_, ?_⟩
    · by_cases hAB : A ∈ KB <;> simp [hAB, hAK]
    · simp [hBK]

/-- C1: two tokens whose successful DNS resolutions yield overlapping
equivalence classes, resolved in either order starting from the same
cache that holds no member of either class, are both assigned one and
the same pseudonym, and every later lookup of either token answers with
that pseudonym from the cache. -/
theorem equivalence_merging (dns : DNS) (salt : String) (m0 : HostMap)
    (A B hnA hnB x : String) (KA KB : List String)
    (hA : classKeys dns A = some (hnA, KA)) (hB : classKeys dns B = some (hnB, KB))
    (hxA : x ∈ KA) (hxB : x ∈ KB) (hAK : A ∈ KA) (hBK : B ∈ KB)
    (hmA : ∀ k ∈ KA, mapFind m0 k = none) (hmB : ∀ k ∈ KB, mapFind m0 k = none)
    (hA0 : mapFind m0 A = none) (hB0 : mapFind m0 B = none) :
    ((anonymize_host dns salt (anonymize_host dns salt m0 A).2.1 B).1 =
        (anonymize_host dns salt m0 A).1 ∧
      mapFind (anonymize_host dns salt (anonymize_host dns salt m0 A).2.1 B).2.1 A =
        some (anonymize_host dns salt m0 A).1 ∧
      mapFind (anonymize_host dns salt (anonymize_host dns salt m0 A).2.1 B).2.1 B =
        some (anonymize_host dns salt m0 A).1) ∧
    ((anonymize_host dns salt (anonymize_host dns salt m0 B).2.1 A).1 =
        (anonymize_host dns salt m0 B).1 ∧
      mapFind (anonymize_host dns salt (anonymize_host dns salt m0 B).2.1 A).2.1 A =
        some (anonymize_host dns salt m0 B).1 ∧
      mapFind (anonymize_host dns salt (anonymize_host dns salt m0 B).2.1 A).2.1 B =
        some (anonymize_host dns salt m0 B).1) := by
  have h1 := merge_step dns salt m0 A B hnA hnB x KA KB hA hB hxA hxB hAK hBK hmA hmB hA0 hB0
  have h2 := merge_step dns salt m0 B A hnB hnA x KB KA hB hA hxB hxA hBK hAK hmB hmA hB0 hA0
  exact ⟨h1, h2.1, h2.2.2, h2.2.1⟩

/-- Witness for C1: two hostnames that forward-resolve to one shared
address. -/
theorem equivalence_merging_witness :
    (let dns : DNS := ⟨fun _ => none,
        fun h => if h = "a.example" ∨ h = "b.example" then some ["10.0.0.5"] else none⟩
     (anonymize_host dns "s" (anonymize_host dns "s" host_map0 "a.example").2.1 "b.example").1 =
       (anonymize_host dns "s" host_map0 "a.example").1 ∧
     (anonymize_host dns "s" (anonymize_host dns "s" host_map0 "b.example").2.1 "a.example").1 =
       (anonymize_host dns "s" host_map0 "b.example").1) := by
  have h := equivalence_merging
    ⟨fun _ => none,
      fun h => if h = "a.example" ∨ h = "b.example" then some ["10.0.0.5"] else none⟩
    "s" host_map0 "a.example" "b.example" "a.example" "b.example" "10.0.0.5"
    ["a.example", "10.0.0.5"] ["b.example", "10.0.0.5"]
    (by decide) (by decide) (by decide) (by decide) (by decide) (by decide)
    (by decide) (by decide) (by decide) (by decide)
  exact ⟨h.1.1, h.2.1⟩

/-! ## Facts about `findSub` (Python `str.find`) -/

theorem findSubAux_bound (pat : List Char) (l : List Char) (i j : Nat)
    (hp : pat ≠ []) (h : findSubAux pat l i = some j) :
    i ≤ j ∧ j - i < l.length := by
  induction l generalizing i with
  | nil =>
    unfold findSubAux at h
    rw [if_neg (by simpa using hp)] at h
    cases h
  | cons c cs ih =>
    unfold findSubAux at h
    by_cases hpre : pat.isPrefixOf (c :: cs) = true
    · rw [if_pos hpre] at h
      cases h
      simp
    · rw [if_neg hpre] at h
      obtain ⟨h1, h2⟩ := ih (i + 1) h
      constructor
      · omega
      · simp only [List.length_cons]
        omega

theorem findSubAux_take (pat : List Char) (l : List Char) (i j n : Nat)
    (hp : pat ≠ []) (h : findSubAux pat l i = some j)
    (hn : j - i + pat.length ≤ n) :
    findSubAux pat (l.take n) i = some j := by
  induction l generalizing i n with
  | nil => simpa using h
  | cons c cs ih =>
    have hpl : 1 ≤ pat.length := by
      cases pat with
      | nil => exact absurd rfl hp
      | cons p ps => simp
    unfold findSubAux at h
    by_cases hpre : pat.isPrefixOf (c :: cs) = true
    · rw [if_pos hpre] at h
      cases h
      have hn' : pat.length ≤ n := by omega
      obtain ⟨m, rfl⟩ : ∃ m, n = m + 1 := ⟨n - 1, by omega⟩
      have hpre' : pat.isPrefixOf (c :: cs.take m) = true := by
        rw [List.isPrefixOf_iff_prefix] at hpre ⊢
        have : pat <+: (c :: cs).take (m + 1) :=
          List.prefix_take_iff.mpr ⟨hpre, by omega⟩
        simpa using this
      rw [List.take_succ_cons]
      unfold findSubAux
      rw [if_pos hpre']
    · rw [if_neg hpre] at h
      obtain ⟨hij, _⟩ := findSubAux_bound pat cs (i + 1) j hp h
      obtain ⟨m, rfl⟩ : ∃ m, n = m + 1 := ⟨n - 1, by omega⟩
      have hpre' : ¬pat.isPrefixOf (c :: cs.take m) = true := by
        intro hcontra
        apply hpre
        rw [List.isPrefixOf_iff_prefix] at hcontra ⊢
        have : pat <+: (c :: cs).take (m + 1) := by simpa using hcontra
        exact (List.prefix_take_iff.mp this).1
      rw [List.take_succ_cons]
      unfold findSubAux
      rw [if_neg hpre']
      exact ih (i + 1) m h (by omega)

theorem findSubAux_take_rev (pat : List Char) (l : List Char) (i j n : Nat)
    (hp : pat ≠ []) (h : findSubAux pat (l.take n) i = some j) :
    ∃ j2, findSubAux pat l i = some j2 ∧ j2 ≤ j := by
  induction l generalizing i n with
  | nil => exact ⟨j, by simpa using h, le_refl j⟩
  | cons c cs ih =>
    cases n with
    | zero =>
      rw [List.take_zero] at h
      unfold findSubAux at h
      rw [if_neg (by simpa using hp)] at h
      cases h
    | succ m =>
      rw [List.take_succ_cons] at h
      unfold findSubAux at h
      by_cases hpre : pat.isPrefixOf (c :: cs.take m) = true
      · rw [if_pos hpre] at h
        cases h
        have hpre' : pat.isPrefixOf (c :: cs) = true := by
          rw [List.isPrefixOf_iff_prefix] at hpre ⊢
          have : pat <+: (c :: cs).take (m + 1) := by simpa using hpre
          exact (List.prefix_take_iff.mp this).1
        exact ⟨j, by unfold findSubAux; rw [if_pos hpre'], le_refl j⟩
      · rw [if_neg hpre] at h
        obtain ⟨hij, _⟩ := findSubAux_bound pat (cs.take m) (i + 1) j hp h
        obtain ⟨j2, hj2, hle⟩ := ih (i + 1) m h
        by_cases hpre' : pat.isPrefixOf (c :: cs) = true
        · exact ⟨i, by unfold findSubAux; rw [if_pos hpre'], by omega⟩
        · exact ⟨j2, by unfold findSubAux; rw [if_neg hpre']; exact hj2, hle⟩

theorem findSub_bound (l pat : List Char) (s j : Nat) (hp : pat ≠ [])
    (h : findSub l pat s = some j) : s ≤ j ∧ j < l.length := by
  obtain ⟨h1, h2⟩ := findSubAux_bound pat (l.drop s) s j hp h
  refine ⟨h1, ?_⟩
  rw [List.length_drop] at h2
  omega

theorem findSub_take (l pat : List Char) (s j n : Nat) (hp : pat ≠ [])
    (h : findSub l pat s = some j) (hn : j + pat.length ≤ n) :
    findSub (l.take n) pat s = some j := by
  obtain ⟨hsj, _⟩ := findSub_bound l pat s j hp h
  unfold findSub at h ⊢
  rw [List.drop_take n s l]
  exact findSubAux_take pat (l.drop s) s j (n - s) hp h (by omega)

theorem findSub_take_rev (l pat : List Char) (s j n : Nat) (hp : pat ≠ [])
    (h : findSub (l.take n) pat s = some j) :
    ∃ j2, findSub l pat s = some j2 ∧ j2 ≤ j := by
  unfold findSub at h ⊢
  rw [List.drop_take n s l] at h
  exact findSubAux_take_rev pat (l.drop s) s j (n - s) hp h

/-! ## Referrer sanitization (`anonymize_referrer`)

The search-engine inclusion patterns (`cresSE`), exclusion patterns
(`cresNonSE`) and the priority list `query_keys` are injected
configuration data; the spec scopes them out of the core.  They are
modelled as parameters: `isSE base` stands for "some inclusion pattern
matches `base`" (only the any-match outcome of the scan is ever used by
the code), `isNonSE base` for "some exclusion pattern matches `base`",
and `qkeys` for the ordered priority list. -/

/-- Python `arg.split('=', 1)`: text before the first separator, and the
text after it when the separator occurs. -/
def splitFirst (sep : Char) : List Char → List Char × Option (List Char)
  | [] => ([], none)
  | c :: cs =>
    if c = sep then ([], some cs)
    else
      let (a, b) := splitFirst sep cs
      (c :: a, b)

/-- Key/value pair of one `&`-separated query segment: split at the
first `=`; a missing `=` yields the empty value. -/
def segPair (seg : List Char) : String × String :=
  let (a, b) := splitFirst '=' seg
  (String.mk a, String.mk (b.getD []))

/-- Lookup with Python-`dict` semantics over the insertion list: the
last occurrence of a key wins. -/
def lookupLast (ps : List (String × String)) (k : String) : Option String :=
  match ps with
  | [] => none
  | (a, b) :: t =>
    match lookupLast t k with
    | some v => some v
    | none => if a = k then some b else none

/-- First key of the priority list present in the mapping, with its
value (the `for key in query_keys` loop). -/
def firstKey (ps : List (String × String)) : List String → Option (String × String)
  | [] => none
  | k :: ks =>
    match lookupLast ps k with
    | some v => some (k, v)
    | none => firstKey ps ks

/-- Truncation at the first `'#'` at or after position `pa`
(`referrer = referrer[:ph]` when a fragment is present). -/
def hashTrunc (r : List Char) (pa : Nat) : List Char :=
  match findSub r ['#'] pa with
  | some ph => r.take ph
  | none => r

/-- Steps 5–7 of the classifier: pattern scan on `base`, then query-key
extraction for a confirmed search referrer.  The `Bool` component
records whether the no-recognized-key warning was emitted. -/
def queryStep (isSE isNonSE : String → Bool) (qkeys : List String)
    (r : List Char) (pa pq : Nat) : String × Bool :=
  let base := String.mk ((r.take pq).drop pa)
  if isSE base then
    if isNonSE base then (String.mk (r.take pq), false)
    else
      let args := splitChar '&' (r.drop (pq + 1))
      let pairs := args.map segPair
      match firstKey pairs qkeys with
      | some (k, v) => (String.mk (r.take pq ++ '?' :: (k.data ++ '=' :: v.data)), false)
      | none => (String.mk (r.take pq ++ '?' :: args.headD []), true)
  else (String.mk (r.take pq), false)

/-- Model of `anonymize_referrer`; the `Bool` component records whether
the no-recognized-key warning was emitted. -/
def anonymize_referrer (isSE isNonSE : String → Bool) (qkeys : List String)
    (referrer : String) : String × Bool :=
  match findSub referrer.data [':', '/', '/'] 0 with
  | none => (referrer, false)
  | some pa0 =>
    let pa := pa0 + 3
    if (referrer.data.drop pa).take 18 = "start.iminent.com/".data then (referrer, false)
    else
      let r := hashTrunc referrer.data pa
      match findSub r ['?'] pa with
      | none => (String.mk r, false)
      | some pq =>
        if pq + 1 = r.length then (String.mk r, false)
        else queryStep isSE isNonSE qkeys r pa pq

/-- Reduction of `anonymize_referrer` on the path that reaches the
pattern scan: scheme present, not the `start.iminent.com` special case,
and a non-final query marker in the fragment-truncated URL. -/
theorem anonymize_referrer_path (isSE isNonSE : String → Bool) (qkeys : List String)
    (referrer : String) (pa0 pq : Nat)
    (h1 : findSub referrer.data [':', '/', '/'] 0 = some pa0)
    (h2 : (referrer.data.drop (pa0 + 3)).take 18 ≠ "start.iminent.com/".data)
    (h3 : findSub (hashTrunc referrer.data (pa0 + 3)) ['?'] (pa0 + 3) = some pq)
    (h4 : pq + 1 ≠ (hashTrunc referrer.data (pa0 + 3)).length) :
    anonymize_referrer isSE isNonSE qkeys referrer =
      queryStep isSE isNonSE qkeys (hashTrunc referrer.data (pa0 + 3)) (pa0 + 3) pq := by
  unfold anonymize_referrer
  rw [h1]
  simp only [if_neg h2, h3, if_neg h4]

/-- Truncating the fragment-truncated URL at the query marker equals
truncating the original URL there: the query marker found by the code
precedes any fragment marker. -/
theorem hashTrunc_take (r : List Char) (pa pq : Nat)
    (h : findSub (hashTrunc r pa) ['?'] pa = some pq) :
    (hashTrunc r pa).take pq = r.take pq := by
  unfold hashTrunc at h ⊢
  cases hph : findSub r ['#'] pa with
  | none => rfl
  | some ph =>
    rw [hph] at h
    obtain ⟨-, hlt⟩ := findSub_bound _ _ _ _ (by simp) h
    rw [List.length_take] at hlt
    rw [List.take_take]
    congr 1
    omega

/-! ## Claim-side characterization of the query parsing -/

/-- Parsed key/value pairs of a query string: split on `&`, then each
segment at its first `=` (missing `=` gives an empty value). -/
def queryPairs (q : List Char) : List (String × String) :=
  (splitChar '&' q).map segPair

/-- Mapping built by left-to-right insertion where a later occurrence of
a key overwrites the earlier value. -/
def qmap (ps : List (String × String)) (k : String) : Option String :=
  ps.foldl (fun acc p => if p.1 = k then some p.2 else acc) none

theorem foldl_overwrite (ps : List (String × String)) (k : String) (z : Option String) :
    ps.foldl (fun acc p => if p.1 = k then some p.2 else acc) z =
      match lookupLast ps k with
      | some v => some v
      | none => z := by
  induction ps generalizing z with
  | nil => rfl
  | cons p t ih =>
    obtain ⟨a, b⟩ := p
    show List.foldl _ (if a = k then some b else z) t = _
    rw [ih]
    have hcons : lookupLast ((a, b) :: t) k =
        match lookupLast t k with
        | some v => some v
        | none => if a = k then some b else none := rfl
    rw [hcons]
    cases h : lookupLast t k with
    | some v => simp [h]
    | none => by_cases ha : a = k <;> simp [h, ha]

theorem lookupLast_eq_qmap (ps : List (String × String)) (k : String) :
    lookupLast ps k = qmap ps k := by
  unfold qmap
  rw [foldl_overwrite]
  cases lookupLast ps k <;> rfl

theorem firstKey_find (ps : List (String × String)) (qkeys : List String) :
    (∀ k v, qkeys.find? (fun kk => (qmap ps kk).isSome) = some k → qmap ps k = some v →
      firstKey ps qkeys = some (k, v)) ∧
    (qkeys.find? (fun kk => (qmap ps kk).isSome) = none → firstKey ps qkeys = none) := by
  induction qkeys with
  | nil =>
    constructor
    · intro k v h _
      cases h
    · intro _
      rfl
  | cons q qs ih =>
    cases hq : lookupLast ps q with
    | some v0 =>
      have hqm : qmap ps q = some v0 := by rw [← lookupLast_eq_qmap, hq]
      constructor
      · intro k v hfind hv
        rw [List.find?_cons_of_pos _ (by simp [hqm])] at hfind
        cases hfind
        have hvv : v0 = v := by
          rw [hv] at hqm
          cases hqm
          rfl
        unfold firstKey
        rw [hq]
        simp [hvv]
      · intro hfind
        rw [List.find?_cons_of_pos _ (by simp [hqm])] at hfind
        cases hfind
    | none =>
      have hqm : qmap ps q = none := by rw [← lookupLast_eq_qmap, hq]
      constructor
      · intro k v hfind hv
        rw [List.find?_cons_of_neg _ (by simp [hqm])] at hfind
        unfold firstKey
        rw [hq]
        exact ih.1 k v hfind hv
      · intro hfind
        rw [List.find?_cons_of_neg _ (by simp [hqm])] at hfind
        unfold firstKey
        rw [hq]
        exact ih.2 hfind

theorem queryPairs_def (q : List Char) :
    (splitChar '&' q).map segPair = queryPairs q := rfl

theorem splitChar_ne_nil (sep : Char) (l : List Char) : splitChar sep l ≠ [] := by
  induction l with
  | nil => simp [splitChar]
  | cons c cs ih =>
    unfold splitChar
    by_cases hc : c = sep
    · simp [hc]
    · simp only [if_neg hc]
      cases h : splitChar sep cs with
      | nil => simp
      | cons a t => simp

theorem splitChar_headD (sep : Char) (l : List Char) :
    (splitChar sep l).headD [] = l.takeWhile (fun c => !(c == sep)) := by
  induction l with
  | nil => rfl
  | cons c cs ih =>
    unfold splitChar
    by_cases hc : c = sep
    · subst hc
      simp [List.takeWhile_cons]
    · simp only [if_neg hc]
      cases h : splitChar sep cs with
      | nil => exact absurd h (splitChar_ne_nil sep cs)
      | cons a t =>
        rw [h] at ih
        simp only [List.headD_cons] at ih
        simp [List.takeWhile_cons, hc, ← ih]

/-! ## The referrer claims (C6, C10, C4) -/

/-- C6: a referrer with a scheme separator and a non-final query marker
whose base either matches no inclusion pattern, or matches an inclusion
pattern and also an exclusion pattern, is returned truncated at the
query marker, with the whole query string discarded and no warning. -/
theorem non_search_truncation (isSE isNonSE : String → Bool) (qkeys : List String)
    (referrer : String) (pa0 pq : Nat)
    (h1 : findSub referrer.data [':', '/', '/'] 0 = some pa0)
    (h2 : (referrer.data.drop (pa0 + 3)).take 18 ≠ "start.iminent.com/".data)
    (h3 : findSub (hashTrunc referrer.data (pa0 + 3)) ['?'] (pa0 + 3) = some pq)
    (h4 : pq + 1 ≠ (hashTrunc referrer.data (pa0 + 3)).length)
    (h5 : isSE (String.mk ((referrer.data.take pq).drop (pa0 + 3))) = false ∨
          (isSE (String.mk ((referrer.data.take pq).drop (pa0 + 3))) = true ∧
           isNonSE (String.mk ((referrer.data.take pq).drop (pa0 + 3))) = true)) :
    anonymize_referrer isSE isNonSE qkeys referrer =
      (String.mk (referrer.data.take pq), false) := by
  rw [anonymize_referrer_path isSE isNonSE qkeys referrer pa0 pq h1 h2 h3 h4]
  have ht := hashTrunc_take referrer.data (pa0 + 3) pq h3
  simp only [queryStep]
  rw [ht]
  rcases h5 with h5 | ⟨h5a, h5b⟩
  · simp [h5]
  · simp [h5a, h5b]

/-- Witness for C6 on the spec's example URL, with tables under which
`example.com/x` matches no inclusion pattern. -/
theorem non_search_truncation_witness :
    anonymize_referrer (fun _ => false) (fun _ => false) ["q"]
      "http://example.com/x?a=1&b=2" = ("http://example.com/x", false) := by
  have h := non_search_truncation (fun _ => false) (fun _ => false) ["q"]
    "http://example.com/x?a=1&b=2" 4 20 (by decide) (by decide) (by decide) (by decide)
    (Or.inl rfl)
  exact h.trans (by decide)

/-- C10: a referrer with a scheme separator, a fragment marker after it,
no `start.iminent.com` special case, and no query marker other than
possibly a final one, is returned truncated at the first fragment
marker — in particular it is not returned unchanged. -/
theorem fragment_strip (isSE isNonSE : String → Bool) (qkeys : List String)
    (referrer : String) (pa0 ph : Nat)
    (h1 : findSub referrer.data [':', '/', '/'] 0 = some pa0)
    (h2 : (referrer.data.drop (pa0 + 3)).take 18 ≠ "start.iminent.com/".data)
    (hph : findSub referrer.data ['#'] (pa0 + 3) = some ph)
    (hq : ∀ pq, findSub referrer.data ['?'] (pa0 + 3) = some pq →
      pq + 1 = referrer.data.length) :
    anonymize_referrer isSE isNonSE qkeys referrer =
      (String.mk (referrer.data.take ph), false) ∧
    String.mk (referrer.data.take ph) ≠ referrer := by
  obtain ⟨hpaph, hphlen⟩ := findSub_bound _ _ _ _ (by simp) hph
  have hnone : findSub (hashTrunc referrer.data (pa0 + 3)) ['?'] (pa0 + 3) = none := by
    unfold hashTrunc
    rw [hph]
    cases hfind : findSub (referrer.data.take ph) ['?'] (pa0 + 3) with
    | none => rfl
    | some j =>
      exfalso
      obtain ⟨j2, hj2, hle⟩ := findSub_take_rev _ _ _ _ _ (by simp) hfind
      have hlen := hq j2 hj2
      obtain ⟨-, hjlt⟩ := findSub_bound _ _ _ _ (by simp) hfind
      rw [List.length_take] at hjlt
      omega
  constructor
  · unfold anonymize_referrer
    rw [h1]
    simp only [if_neg h2, hnone]
    unfold hashTrunc
    rw [hph]
  · intro he
    have hd : referrer.data.take ph = referrer.data := congrArg String.data he
    have := congrArg List.length hd
    rw [List.length_take] at this
    omega

/-- Witness for C10: a fragment-bearing URL with no query marker. -/
theorem fragment_strip_witness :
    anonymize_referrer (fun _ => false) (fun _ => false) ["q"]
      "http://example.com/x#frag" = ("http://example.com/x", false) ∧
    ("http://example.com/x" : String) ≠ "http://example.com/x#frag" := by
  have h := fragment_strip (fun _ => false) (fun _ => false) ["q"]
    "http://example.com/x#frag" 4 20 (by decide) (by decide) (by decide)
    (by
      intro pq hpq
      rw [show findSub "http://example.com/x#frag".data ['?'] (4 + 3) = none by decide] at hpq
      cases hpq)
  exact ⟨h.1.trans (by decide), by decide⟩

/-- C4: a confirmed search referrer (inclusion pattern matches the base,
no exclusion pattern does) has its query parsed by splitting on `&` and
each segment at its first `=` (missing `=` giving the empty value), into
a mapping where a repeated key's later occurrence overwrites the earlier
value; the result is the URL truncated at the query marker plus `?`,
the first priority-list key present in the mapping, `=`, and that key's
current value; with no priority key present, the result is the truncated
URL plus `?` plus the first raw unparsed query segment, and the warning
flag is set. -/
theorem search_extraction (isSE isNonSE : String → Bool) (qkeys : List String)
    (referrer : String) (pa0 pq : Nat)
    (h1 : findSub referrer.data [':', '/', '/'] 0 = some pa0)
    (h2 : (referrer.data.drop (pa0 + 3)).take 18 ≠ "start.iminent.com/".data)
    (h3 : findSub (hashTrunc referrer.data (pa0 + 3)) ['?'] (pa0 + 3) = some pq)
    (h4 : pq + 1 ≠ (hashTrunc referrer.data (pa0 + 3)).length)
    (hSE : isSE (String.mk ((referrer.data.take pq).drop (pa0 + 3))) = true)
    (hNonSE : isNonSE (String.mk ((referrer.data.take pq).drop (pa0 + 3))) = false) :
    (∀ k v,
      qkeys.find? (fun kk =>
        (qmap (queryPairs ((hashTrunc referrer.data (pa0 + 3)).drop (pq + 1))) kk).isSome)
        = some k →
      qmap (queryPairs ((hashTrunc referrer.data (pa0 + 3)).drop (pq + 1))) k = some v →
      anonymize_referrer isSE isNonSE qkeys referrer =
        (String.mk (referrer.data.take pq ++ '?' :: (k.data ++ '=' :: v.data)), false)) ∧
    (qkeys.find? (fun kk =>
        (qmap (queryPairs ((hashTrunc referrer.data (pa0 + 3)).drop (pq + 1))) kk).isSome)
        = none →
      anonymize_referrer isSE isNonSE qkeys referrer =
        (String.mk (referrer.data.take pq ++ '?' ::
          ((hashTrunc referrer.data (pa0 + 3)).drop (pq + 1)).takeWhile
            (fun c => !(c == '&'))), true)) := by
  have hpath := anonymize_referrer_path isSE isNonSE qkeys referrer pa0 pq h1 h2 h3 h4
  have ht := hashTrunc_take referrer.data (pa0 + 3) pq h3
  constructor
  · intro k v hfind hv
    rw [hpath]
    simp only [queryStep]
    rw [ht, hSE, hNonSE, queryPairs_def,
      (firstKey_find (queryPairs ((hashTrunc referrer.data (pa0 + 3)).drop (pq + 1)))
        qkeys).1 k v hfind hv]
    simp
  · intro hfind
    rw [hpath]
    simp only [queryStep]
    rw [ht, hSE, hNonSE, queryPairs_def,
      (firstKey_find (queryPairs ((hashTrunc referrer.data (pa0 + 3)).drop (pq + 1)))
        qkeys).2 hfind]
    rw [splitChar_headD]
    simp

/-- Witness for C4 on the spec's example URL, with tables under which
the base matches an inclusion pattern only and `q` is the top priority
key. -/
theorem search_extraction_witness :
    anonymize_referrer (fun b => b == "www.google.com/search") (fun _ => false) ["q"]
      "http://www.google.com/search?q=cats&foo=bar" =
      ("http://www.google.com/search?q=cats", false) := by
  have h := (search_extraction (fun b => b == "www.google.com/search") (fun _ => false) ["q"]
    "http://www.google.com/search?q=cats&foo=bar" 4 28
    (by decide) (by decide) (by decide) (by decide) (by decide) (by decide)).1
    "q" "cats" (by decide) (by decide)
  exact h.trans (by decide)

/-! ## Date filtering (`creAnyDate` / `creReqDate`)

The source builds two regexes over the date prefix of the timestamp
field: `reAnyDate` is `[0-3]?[0-9]/(Jan|...|Dec)/[1-9][0-9]{3}[ ,:-]`,
and `reReqDate` replaces the components constrained by the validated
`-d`/`-m`/`-y` options with literals (a single-digit day becoming
`0?d`).  Both are used with `re.match`, i.e. as prefix matches.  The
constrained components are modelled as pattern values: `exact` for a
literal substitution, `optZero` for the `0?d` day form, `any` for an
unconstrained component. -/

/-- Character class `[0-3]`. -/
def d03 : List Char := "0123".data

/-- Character class `[ ,:-]` closing the date pattern. -/
def sepClass : List Char := [' ', ',', ':', '-']

/-- Month abbreviations (`month_abbr` in the source). -/
def month_abbr : List String :=
  ["Jan", "Feb", "Mar", "Apr", "May", "Jun", "Jul", "Aug", "Sep", "Oct", "Nov", "Dec"]

/-- Consumption of one expected literal character. -/
def expectC (c : Char) : List Char → Option (List Char)
  | x :: xs => if x = c then some xs else none
  | [] => none

/-- Day component of the date regex. -/
inductive DayPat where
  | any
  | exact (ds : List Char)
  | optZero (d : Char)

/-- Month component of the date regex. -/
inductive MonthPat where
  | any
  | exact (ms : List Char)

/-- Year component of the date regex. -/
inductive YearPat where
  | any
  | exact (ys : List Char)

/-- Date-filter configuration after startup validation. -/
structure DatePats where
  day : DayPat
  month : MonthPat
  year : YearPat

/-- Possible remainders after the wildcard day component `[0-3]?[0-9]`
consumes a prefix; the optional first character gives two alternatives. -/
def dayAny : List Char → List (List Char)
  | c1 :: c2 :: rest =>
      (if chIn c1 d03 && chIn c2 d09 then [rest] else []) ++
      (if chIn c1 d09 then [c2 :: rest] else [])
  | [c1] => if chIn c1 d09 then [[]] else []
  | [] => []

/-- Possible remainders after the single-digit day component `0?d`
consumes a prefix. -/
def dayOptZero (d : Char) : List Char → List (List Char)
  | c1 :: c2 :: rest =>
      (if c1 == '0' && c2 == d then [rest] else []) ++
      (if c1 == d then [c2 :: rest] else [])
  | [c1] => if c1 == d then [[]] else []
  | [] => []

/-- Possible remainders after the day component consumes a prefix. -/
def dayStarts : DayPat → List Char → List (List Char)
  | .any, cs => dayAny cs
  | .exact ds, cs => if ds.isPrefixOf cs then [cs.drop ds.length] else []
  | .optZero d, cs => dayOptZero d cs

/-- Remainder after the month component consumes a prefix; the
twelve-way alternation is deterministic because all abbreviations have
three characters. -/
def monthStarts : MonthPat → List Char → Option (List Char)
  | .any, cs =>
      if month_abbr.any (fun a => a.data.isPrefixOf cs) then some (cs.drop 3) else none
  | .exact ms, cs => if ms.isPrefixOf cs then some (cs.drop ms.length) else none

/-- Remainder after the wildcard year component `[1-9][0-9]{3}`
consumes a prefix. -/
def yearAny : List Char → Option (List Char)
  | a :: b :: c :: d :: rest =>
      if chIn a d19 && chIn b d09 && chIn c d09 && chIn d d09 then some rest else none
  | _ => none

/-- Remainder after the year component (`[1-9][0-9]{3}` or a literal)
consumes a prefix. -/
def yearStarts : YearPat → List Char → Option (List Char)
  | .any, cs => yearAny cs
  | .exact ys, cs => if ys.isPrefixOf cs then some (cs.drop ys.length) else none

/-- Closing character class of the date pattern. -/
def matchSepStart : List Char → Bool
  | c :: _ => chIn c sepClass
  | [] => false

/-- Year component followed by the closing class. -/
def matchYearSep (yp : YearPat) (cs : List Char) : Bool :=
  match yearStarts yp cs with
  | some r => matchSepStart r
  | none => false

/-- Month component followed by `/`, the year and the closing class. -/
def matchMonthTail (mp : MonthPat) (yp : YearPat) (cs : List Char) : Bool :=
  match monthStarts mp cs with
  | none => false
  | some ms =>
    match expectC '/' ms with
    | none => false
    | some r => matchYearSep yp r

/-- Prefix match (`re.match`) of the composed date pattern
`day / month / year [ ,:-]`. -/
def matchDate (dp : DayPat) (mp : MonthPat) (yp : YearPat) (cs : List Char) : Bool :=
  (dayStarts dp cs).any fun r =>
    match expectC '/' r with
    | none => false
    | some r2 => matchMonthTail mp yp r2

/-- Model of `creAnyDate.match` (all components wildcarded). -/
def anyDateMatch (cs : List Char) : Bool := matchDate .any .any .any cs

/-- Model of `creReqDate.match` (constrained components substituted). -/
def reqDateMatch (fl : DatePats) (cs : List Char) : Bool :=
  matchDate fl.day fl.month fl.year cs

/-- Shape of the day component after startup validation: a validated
day is 1–31, so a two-digit literal starts with a digit in `[0-3]`, and
the `0?d` form carries a nonzero digit. -/
def validDay (dp : DayPat) : Prop :=
  dp = .any ∨
    (∃ c1 c2, dp = .exact [c1, c2] ∧ c1 ∈ d03 ∧ c2 ∈ d09) ∨
    (∃ d, dp = .optZero d ∧ d ∈ d19)

/-- Shape of the month component after startup validation: a literal is
one of the twelve abbreviations. -/
def validMonth (mp : MonthPat) : Prop :=
  mp = .any ∨ ∃ a, mp = .exact a.data ∧ a ∈ month_abbr

/-- Shape of the year component after startup validation: a validated
year is 1995–9999, so a literal is four digits with a nonzero leading
digit. -/
def validYear (yp : YearPat) : Prop :=
  yp = .any ∨ ∃ y1 y2 y3 y4, yp = .exact [y1, y2, y3, y4] ∧
    y1 ∈ d19 ∧ y2 ∈ d09 ∧ y3 ∈ d09 ∧ y4 ∈ d09

/-- Shapes the date-filter components can have after the startup
validation of the source. -/
def validDatePats (fl : DatePats) : Prop :=
  validDay fl.day ∧ validMonth fl.month ∧ validYear fl.year

/-! ## Log-record grammar and the per-record pipeline -/

/-- The nine fields of the Combined Log Format grammar `reLL`. -/
structure LogRecord where
  host : String
  ident : String
  authuser : String
  timestamp : String
  request : String
  status : String
  bytes : String
  referrer : String
  useragent : String
deriving DecidableEq

/-- Full match of the log-line regex
`([^ ]*) ([^ ]*) ([^ ]*) \[([^\]]*)\] "([^"]*)" ([^ ]*) ([^ ]*) "([^"]*)" "(.*)"`
against a line (with its trailing newline already excluded, as in the
source's `fullmatch(line, 0, len(line)-1)`).  Each negated-class star
followed by its literal delimiter is deterministic (a shorter match
leaves a non-delimiter in front of the literal), so the regex is
transcribed as maximal-run scanning; the final `(.*)"` anchors to a
closing quote as last character, with `.` not matching a newline. -/
def parseLogLine (cs : List Char) : Option LogRecord :=
  match expectC ' ' (cs.dropWhile (fun c => !(c == ' '))) with
  | none => none
  | some r1 =>
  match expectC ' ' (r1.dropWhile (fun c => !(c == ' '))) with
  | none => none
  | some r2 =>
  match expectC ' ' (r2.dropWhile (fun c => !(c == ' '))) with
  | none => none
  | some r3 =>
  match expectC '[' r3 with
  | none => none
  | some r4 =>
  match expectC ']' (r4.dropWhile (fun c => !(c == ']'))) with
  | none => none
  | some r5 =>
  match expectC ' ' r5 with
  | none => none
  | some r6 =>
  match expectC '"' r6 with
  | none => none
  | some r7 =>
  match expectC '"' (r7.dropWhile (fun c => !(c == '"'))) with
  | none => none
  | some r8 =>
  match expectC ' ' r8 with
  | none => none
  | some r9 =>
  match expectC ' ' (r9.dropWhile (fun c => !(c == ' '))) with
  | none => none
  | some r10 =>
  match expectC ' ' (r10.dropWhile (fun c => !(c == ' '))) with
  | none => none
  | some r11 =>
  match expectC '"' r11 with
  | none => none
  | some r12 =>
  match expectC '"' (r12.dropWhile (fun c => !(c == '"'))) with
  | none => none
  | some r13 =>
  match expectC ' ' r13 with
  | none => none
  | some r14 =>
  match expectC '"' r14 with
  | none => none
  | some r15 =>
  if r15.getLast? = some '"' && !(r15.dropLast.contains '\n') then
    some ⟨String.mk (cs.takeWhile (fun c => !(c == ' '))),
          String.mk (r1.takeWhile (fun c => !(c == ' '))),
          String.mk (r2.takeWhile (fun c => !(c == ' '))),
          String.mk (r4.takeWhile (fun c => !(c == ']'))),
          String.mk (r7.takeWhile (fun c => !(c == '"'))),
          String.mk (r9.takeWhile (fun c => !(c == ' '))),
          String.mk (r10.takeWhile (fun c => !(c == ' '))),
          String.mk (r12.takeWhile (fun c => !(c == '"'))),
          String.mk r15.dropLast⟩
  else none

/-- Output formatting `'{} {} {} [{}] "{}" {} {} "{}" "{}"'` of the
source (without the appended newline). -/
def formatLine (r : LogRecord) : String :=
  String.mk (r.host.data ++ ' ' :: (r.ident.data ++ ' ' :: (r.authuser.data ++
    ' ' :: '[' :: (r.timestamp.data ++ ']' :: ' ' :: '"' :: (r.request.data ++
    '"' :: ' ' :: (r.status.data ++ ' ' :: (r.bytes.data ++ ' ' :: '"' ::
    (r.referrer.data ++ '"' :: ' ' :: '"' :: (r.useragent.data ++ ['"'])))))))))

/-- Outcome of the loop body for one input line. -/
inductive LineResult where
  | emitted (out : String)
  | unparsable
  | dateUnparsable
  | filteredOut
deriving DecidableEq

/-- Rewriting and emission of a parsed, date-accepted record: field 1 is
replaced by its pseudonym, field 8 by its sanitized referrer, and the
line is reassembled. -/
def emitRecord (dns : DNS) (salt : String) (isSE isNonSE : String → Bool)
    (qkeys : List String) (m : HostMap) (rec : LogRecord) :
    LineResult × HostMap × List DnsCall :=
  (.emitted (formatLine { rec with
      host := (anonymize_host dns salt m rec.host).1,
      referrer := (anonymize_referrer isSE isNonSE qkeys rec.referrer).1 }),
   (anonymize_host dns salt m rec.host).2.1,
   (anonymize_host dns salt m rec.host).2.2)

/-- Body of the main loop for one line (trailing newline excluded):
parse, optionally date-filter, rewrite host and referrer, emit. -/
def processLine (dns : DNS) (salt : String) (isSE isNonSE : String → Bool)
    (qkeys : List String) (dfilter : Option DatePats) (m : HostMap) (cs : List Char) :
    LineResult × HostMap × List DnsCall :=
  match parseLogLine cs with
  | none => (.unparsable, m, [])
  | some rec =>
    match dfilter with
    | some fl =>
      if reqDateMatch fl rec.timestamp.data then
        emitRecord dns salt isSE isNonSE qkeys m rec
      else if anyDateMatch rec.timestamp.data then (.filteredOut, m, [])
      else (.dateUnparsable, m, [])
    | none => emitRecord dns salt isSE isNonSE qkeys m rec

/-! ## The date-filter trichotomy (C8) -/

theorem d19_sub_d09 (c : Char) (h : c ∈ d19) : c ∈ d09 := by
  fin_cases h <;> decide

theorem d03_sub_d09 (c : Char) (h : c ∈ d03) : c ∈ d09 := by
  fin_cases h <;> decide

theorem month_abbr_len (a : String) (h : a ∈ month_abbr) : a.data.length = 3 := by
  fin_cases h <;> rfl

theorem isPrefixOf_decomp (p cs : List Char) (h : p.isPrefixOf cs = true) :
    cs = p ++ cs.drop p.length := by
  obtain ⟨t, rfl⟩ := List.isPrefixOf_iff_prefix.mp h
  simp

theorem dayStarts_mono (dp : DayPat) (hv : validDay dp) (cs r : List Char)
    (h : r ∈ dayStarts dp cs) : r ∈ dayStarts .any cs := by
  rcases hv with hv | ⟨c1, c2, hv, hc1, hc2⟩ | ⟨d, hv, hd⟩
  · rw [hv] at h
    exact h
  · subst hv
    simp only [dayStarts] at h
    by_cases hpre : [c1, c2].isPrefixOf cs = true
    · rw [if_pos hpre] at h
      simp only [List.mem_singleton] at h
      obtain ⟨t, ht⟩ : ∃ t, cs = c1 :: c2 :: t :=
        ⟨cs.drop 2, isPrefixOf_decomp [c1, c2] cs hpre⟩
      subst ht
      have h' : r = t := by simpa using h
      subst h'
      simp only [dayStarts, dayAny]
      rw [List.mem_append]
      left
      rw [if_pos (by simp [hc1, hc2])]
      simp
    · rw [if_neg hpre] at h
      cases h
  · subst hv
    have hd9 : d ∈ d09 := d19_sub_d09 d hd
    cases cs with
    | nil => cases h
    | cons c1 cs2 =>
      cases cs2 with
      | nil =>
        simp only [dayStarts, dayOptZero] at h
        simp only [dayStarts, dayAny]
        by_cases hc : (c1 == d) = true
        · rw [if_pos hc] at h
          simp only [List.mem_singleton] at h
          subst h
          rw [beq_iff_eq] at hc
          subst hc
          rw [if_pos (by simp [hd9])]
          simp
        · rw [if_neg hc] at h
          cases h
      | cons c2 rest =>
        simp only [dayStarts, dayOptZero] at h
        simp only [dayStarts, dayAny]
        rw [List.mem_append] at h ⊢
        rcases h with h | h
        · by_cases hb : (c1 == '0' && c2 == d) = true
          · rw [if_pos hb] at h
            simp only [List.mem_singleton] at h
            subst h
            left
            simp only [Bool.and_eq_true, beq_iff_eq] at hb
            obtain ⟨rfl, rfl⟩ := hb
            rw [if_pos (by simp [hd9]; decide)]
            simp
          · rw [if_neg hb] at h
            cases h
        · by_cases hb : (c1 == d) = true
          · rw [if_pos hb] at h
            simp only [List.mem_singleton] at h
            subst h
            right
            rw [beq_iff_eq] at hb
            subst hb
            rw [if_pos (by simp [hd9])]
            simp
          · rw [if_neg hb] at h
            cases h

theorem monthStarts_mono (mp : MonthPat) (hv : validMonth mp) (cs r : List Char)
    (h : monthStarts mp cs = some r) : monthStarts .any cs = some r := by
  rcases hv with hv | ⟨a, hv, ha⟩
  · rw [hv] at h
    exact h
  · subst hv
    simp only [monthStarts] at h
    by_cases hpre : a.data.isPrefixOf cs = true
    · rw [if_pos hpre] at h
      simp only [monthStarts]
      rw [if_pos (by rw [List.any_eq_true]; exact ⟨a, ha, hpre⟩)]
      rw [← h, month_abbr_len a ha]
    · rw [if_neg hpre] at h
      cases h

theorem yearStarts_mono (yp : YearPat) (hv : validYear yp) (cs r : List Char)
    (h : yearStarts yp cs = some r) : yearStarts .any cs = some r := by
  rcases hv with hv | ⟨y1, y2, y3, y4, hv, h1, h2, h3, h4⟩
  · rw [hv] at h
    exact h
  · subst hv
    simp only [yearStarts] at h
    by_cases hpre : [y1, y2, y3, y4].isPrefixOf cs = true
    · rw [if_pos hpre] at h
      obtain ⟨t, ht⟩ : ∃ t, cs = y1 :: y2 :: y3 :: y4 :: t :=
        ⟨cs.drop 4, isPrefixOf_decomp [y1, y2, y3, y4] cs hpre⟩
      subst ht
      have h' : some t = some r := by simpa using h
      simp only [yearStarts, yearAny]
      rw [if_pos (by simp [h1, h2, h3, h4])]
      exact h'
    · rw [if_neg hpre] at h
      cases h

theorem matchYearSep_mono (yp : YearPat) (hv : validYear yp) (cs : List Char)
    (h : matchYearSep yp cs = true) : matchYearSep .any cs = true := by
  cases hy : yearStarts yp cs with
  | none =>
    simp only [matchYearSep, hy] at h
    simp at h
  | some r =>
    simp only [matchYearSep, hy] at h
    simp only [matchYearSep, yearStarts_mono yp hv cs r hy]
    exact h

theorem matchMonthTail_mono (mp : MonthPat) (yp : YearPat)
    (hvm : validMonth mp) (hvy : validYear yp) (cs : List Char)
    (h : matchMonthTail mp yp cs = true) : matchMonthTail .any .any cs = true := by
  cases hm : monthStarts mp cs with
  | none =>
    simp only [matchMonthTail, hm] at h
    simp at h
  | some ms =>
    simp only [matchMonthTail, hm] at h
    simp only [matchMonthTail, monthStarts_mono mp hvm cs ms hm]
    cases he : expectC '/' ms with
    | none =>
      simp only [he] at h
      simp at h
    | some r =>
      simp only [he] at h ⊢
      exact matchYearSep_mono yp hvy r h

/-- Constrained pattern match implies wildcarded pattern match: a record
the filter keeps always parses as a date. -/
theorem reqDateMatch_imp_any (fl : DatePats) (hv : validDatePats fl) (cs : List Char)
    (h : reqDateMatch fl cs = true) : anyDateMatch cs = true := by
  unfold reqDateMatch matchDate at h
  rw [List.any_eq_true] at h
  obtain ⟨r, hr, htail⟩ := h
  unfold anyDateMatch matchDate
  rw [List.any_eq_true]
  refine ⟨r, dayStarts_mono fl.day hv.1 cs r hr, ?_⟩
  cases he : expectC '/' r with
  | none =>
    rw [he] at htail
    simp at htail
  | some r2 =>
    simp only [he] at htail ⊢
    exact matchMonthTail_mono fl.month fl.year hv.2.1 hv.2.2 r2 htail

/-- C8: with an active, validated date filter, a parsed record whose
timestamp fails even the fully wildcarded date grammar is dropped as
date-unparsable (the warned case); one that matches the wildcarded
grammar but not the constrained pattern is silently filtered out; one
that matches the constrained pattern (and hence the wildcarded grammar)
is kept and processed. -/
theorem date_filter_trichotomy (dns : DNS) (salt : String) (isSE isNonSE : String → Bool)
    (qkeys : List String) (fl : DatePats) (hv : validDatePats fl) (m : HostMap)
    (cs : List Char) (rec : LogRecord) (hp : parseLogLine cs = some rec) :
    (anyDateMatch rec.timestamp.data = false →
      processLine dns salt isSE isNonSE qkeys (some fl) m cs =
        (.dateUnparsable, m, [])) ∧
    (anyDateMatch rec.timestamp.data = true → reqDateMatch fl rec.timestamp.data = false →
      processLine dns salt isSE isNonSE qkeys (some fl) m cs =
        (.filteredOut, m, [])) ∧
    (reqDateMatch fl rec.timestamp.data = true →
      anyDateMatch rec.timestamp.data = true ∧
      processLine dns salt isSE isNonSE qkeys (some fl) m cs =
        emitRecord dns salt isSE isNonSE qkeys m rec) := by
  refine ⟨?_, ?_, ?_⟩
  · intro hany
    have hreq : reqDateMatch fl rec.timestamp.data = false := by
      cases hr : reqDateMatch fl rec.timestamp.data with
      | false => rfl
      | true =>
        rw [reqDateMatch_imp_any fl hv _ hr] at hany
        cases hany
    simp [processLine, hp, hreq, hany]
  · intro hany hreq
    simp [processLine, hp, hreq, hany]
  · intro hreq
    refine ⟨reqDateMatch_imp_any fl hv _ hreq, ?_⟩
    simp [processLine, hp, hreq]

/-- Witness for C8 with month filter `Jan`, on the three timestamps of
the spec's example. -/
theorem date_filter_trichotomy_witness :
    processLine ⟨fun _ => none, fun _ => none⟩ "" (fun _ => false) (fun _ => false) []
        (some ⟨.any, .exact "Jan".data, .any⟩) host_map0
        "h - - [15/Feb/2020:10:00:00 +0000] \"GET / HTTP/1.0\" 200 12 \"-\" \"UA\"".data =
      (.filteredOut, host_map0, []) ∧
    processLine ⟨fun _ => none, fun _ => none⟩ "" (fun _ => false) (fun _ => false) []
        (some ⟨.any, .exact "Jan".data, .any⟩) host_map0
        "h - - [99/Jan/2020:10:00:00 +0000] \"GET / HTTP/1.0\" 200 12 \"-\" \"UA\"".data =
      (.dateUnparsable, host_map0, []) ∧
    processLine ⟨fun _ => none, fun _ => none⟩ "" (fun _ => false) (fun _ => false) []
        (some ⟨.any, .exact "Jan".data, .any⟩) host_map0
        "h - - [15/Jan/2020:10:00:00 +0000] \"GET / HTTP/1.0\" 200 12 \"-\" \"UA\"".data =
      emitRecord ⟨fun _ => none, fun _ => none⟩ "" (fun _ => false) (fun _ => false) []
        host_map0
        ⟨"h", "-", "-", "15/Jan/2020:10:00:00 +0000", "GET / HTTP/1.0", "200", "12",
         "-", "UA"⟩ := by
  have hval : validDatePats ⟨.any, .exact "Jan".data, .any⟩ :=
    ⟨Or.inl rfl, Or.inr ⟨"Jan", rfl, by decide⟩, Or.inl rfl⟩
  refine ⟨?_, ?_, ?_⟩
  · exact (date_filter_trichotomy ⟨fun _ => none, fun _ => none⟩ "" (fun _ => false)
      (fun _ => false) [] ⟨.any, .exact "Jan".data, .any⟩ hval host_map0 _
      ⟨"h", "-", "-", "15/Feb/2020:10:00:00 +0000", "GET / HTTP/1.0", "200", "12",
       "-", "UA"⟩ (by decide)).2.1 (by decide) (by decide)
  · exact (date_filter_trichotomy ⟨fun _ => none, fun _ => none⟩ "" (fun _ => false)
      (fun _ => false) [] ⟨.any, .exact "Jan".data, .any⟩ hval host_map0 _
      ⟨"h", "-", "-", "99/Jan/2020:10:00:00 +0000", "GET / HTTP/1.0", "200", "12",
       "-", "UA"⟩ (by decide)).1 (by decide)
  · exact ((date_filter_trichotomy ⟨fun _ => none, fun _ => none⟩ "" (fun _ => false)
      (fun _ => false) [] ⟨.any, .exact "Jan".data, .any⟩ hval host_map0 _
      ⟨"h", "-", "-", "15/Jan/2020:10:00:00 +0000", "GET / HTTP/1.0", "200", "12",
       "-", "UA"⟩ (by decide)).2.2 (by decide)).2

/-! ## Soundness of the log-line grammar and the frame property (C9) -/

theorem expectC_eq (c : Char) (l t : List Char) (h : expectC c l = some t) :
    l = c :: t := by
  cases l with
  | nil => cases h
  | cons x xs =>
    simp only [expectC] at h
    by_cases hx : x = c
    · rw [if_pos hx] at h
      cases h
      rw [hx]
    · rw [if_neg hx] at h
      cases h

theorem getLast?_decomp (l : List Char) (a : Char) (h : l.getLast? = some a) :
    l = l.dropLast ++ [a] := by
  induction l with
  | nil => cases h
  | cons c cs ih =>
    cases cs with
    | nil =>
      simp only [List.getLast?_singleton, Option.some.injEq] at h
      subst h
      rfl
    | cons c2 cs2 =>
      rw [List.getLast?_cons_cons] at h
      have htail := ih h
      calc c :: c2 :: cs2 = c :: ((c2 :: cs2).dropLast ++ [a]) := by rw [← htail]
        _ = (c :: c2 :: cs2).dropLast ++ [a] := by simp

/-- Soundness of the grammar: a line that parses is exactly the
nine-field layout reassembled from its fields. -/
theorem parseLogLine_sound (cs : List Char) (rec : LogRecord)
    (h : parseLogLine cs = some rec) : String.mk cs = formatLine rec := by
  unfold parseLogLine at h
  cases h1 : expectC ' ' (cs.dropWhile (fun c => !(c == ' '))) with
  | none => simp only [h1] at h; cases h
  | some r1 =>
  simp only [h1] at h
  cases h2 : expectC ' ' (r1.dropWhile (fun c => !(c == ' '))) with
  | none => simp only [h2] at h; cases h
  | some r2 =>
  simp only [h2] at h
  cases h3 : expectC ' ' (r2.dropWhile (fun c => !(c == ' '))) with
  | none => simp only [h3] at h; cases h
  | some r3 =>
  simp only [h3] at h
  cases h4 : expectC '[' r3 with
  | none => simp only [h4] at h; cases h
  | some r4 =>
  simp only [h4] at h
  cases h5 : expectC ']' (r4.dropWhile (fun c => !(c == ']'))) with
  | none => simp only [h5] at h; cases h
  | some r5 =>
  simp only [h5] at h
  cases h6 : expectC ' ' r5 with
  | none => simp only [h6] at h; cases h
  | some r6 =>
  simp only [h6] at h
  cases h7 : expectC '"' r6 with
  | none => simp only [h7] at h; cases h
  | some r7 =>
  simp only [h7] at h
  cases h8 : expectC '"' (r7.dropWhile (fun c => !(c == '"'))) with
  | none => simp only [h8] at h; cases h
  | some r8 =>
  simp only [h8] at h
  cases h9 : expectC ' ' r8 with
  | none => simp only [h9] at h; cases h
  | some r9 =>
  simp only [h9] at h
  cases h10 : expectC ' ' (r9.dropWhile (fun c => !(c == ' '))) with
  | none => simp only [h10] at h; cases h
  | some r10 =>
  simp only [h10] at h
  cases h11 : expectC ' ' (r10.dropWhile (fun c => !(c == ' '))) with
  | none => simp only [h11] at h; cases h
  | some r11 =>
  simp only [h11] at h
  cases h12 : expectC '"' r11 with
  | none => simp only [h12] at h; cases h
  | some r12 =>
  simp only [h12] at h
  cases h13 : expectC '"' (r12.dropWhile (fun c => !(c == '"'))) with
  | none => simp only [h13] at h; cases h
  | some r13 =>
  simp only [h13] at h
  cases h14 : expectC ' ' r13 with
  | none => simp only [h14] at h; cases h
  | some r14 =>
  simp only [h14] at h
  cases h15 : expectC '"' r14 with
  | none => simp only [h15] at h; cases h
  | some r15 =>
  simp only [h15] at h
  by_cases hg : (r15.getLast? = some '"' && !(r15.dropLast.contains '\n')) = true
  · rw [if_pos hg] at h
    rw [Bool.and_eq_true] at hg
    have hlast : r15.getLast? = some '"' := of_decide_eq_true hg.1
    cases h
    have e1 : cs = cs.takeWhile (fun c => !(c == ' ')) ++ ' ' :: r1 := by
      rw [← expectC_eq _ _ _ h1]
      exact (List.takeWhile_append_dropWhile (fun c => !(c == ' ')) cs).symm
    have e2 : r1 = r1.takeWhile (fun c => !(c == ' ')) ++ ' ' :: r2 := by
      rw [← expectC_eq _ _ _ h2]
      exact (List.takeWhile_append_dropWhile (fun c => !(c == ' ')) r1).symm
    have e3 : r2 = r2.takeWhile (fun c => !(c == ' ')) ++ ' ' :: r3 := by
      rw [← expectC_eq _ _ _ h3]
      exact (List.takeWhile_append_dropWhile (fun c => !(c == ' ')) r2).symm
    have e4 : r3 = '[' :: r4 := expectC_eq _ _ _ h4
    have e5 : r4 = r4.takeWhile (fun c => !(c == ']')) ++ ']' :: r5 := by
      rw [← expectC_eq _ _ _ h5]
      exact (List.takeWhile_append_dropWhile (fun c => !(c == ']')) r4).symm
    have e6 : r5 = ' ' :: r6 := expectC_eq _ _ _ h6
    have e7 : r6 = '"' :: r7 := expectC_eq _ _ _ h7
    have e8 : r7 = r7.takeWhile (fun c => !(c == '"')) ++ '"' :: r8 := by
      rw [← expectC_eq _ _ _ h8]
      exact (List.takeWhile_append_dropWhile (fun c => !(c == '"')) r7).symm
    have e9 : r8 = ' ' :: r9 := expectC_eq _ _ _ h9
    have e10 : r9 = r9.takeWhile (fun c => !(c == ' ')) ++ ' ' :: r10 := by
      rw [← expectC_eq _ _ _ h10]
      exact (List.takeWhile_append_dropWhile (fun c => !(c == ' ')) r9).symm
    have e11 : r10 = r10.takeWhile (fun c => !(c == ' ')) ++ ' ' :: r11 := by
      rw [← expectC_eq _ _ _ h11]
      exact (List.takeWhile_append_dropWhile (fun c => !(c == ' ')) r10).symm
    have e12 : r11 = '"' :: r12 := expectC_eq _ _ _ h12
    have e13 : r12 = r12.takeWhile (fun c => !(c == '"')) ++ '"' :: r13 := by
      rw [← expectC_eq _ _ _ h13]
      exact (List.takeWhile_append_dropWhile (fun c => !(c == '"')) r12).symm
    have e14 : r13 = ' ' :: r14 := expectC_eq _ _ _ h14
    have e15 : r14 = '"' :: r15 := expectC_eq _ _ _ h15
    have e16 : r15 = r15.dropLast ++ ['"'] := getLast?_decomp r15 '"' hlast
    rw [e2, e3, e4, e5, e6, e7, e8, e9, e10, e11, e12, e13, e14, e15, e16] at e1
    exact congrArg String.mk e1
  · rw [if_neg hg] at h
    cases h

/-- C9: the per-record transformation is a frame: an input line that
parses and passes the date filter is the nine-field assembly of its
fields, and the emitted line is the same assembly with only field 1
(host) replaced by its pseudonym and field 8 (referrer) replaced by its
sanitized form — fields 2–7 and 9 are carried over unchanged. -/
theorem frame_property (dns : DNS) (salt : String) (isSE isNonSE : String → Bool)
    (qkeys : List String) (dfilter : Option DatePats) (m : HostMap)
    (cs : List Char) (rec : LogRecord) (hp : parseLogLine cs = some rec)
    (hkeep : ∀ fl, dfilter = some fl → reqDateMatch fl rec.timestamp.data = true) :
    String.mk cs = formatLine rec ∧
    processLine dns salt isSE isNonSE qkeys dfilter m cs =
      (.emitted (formatLine { rec with
          host := (anonymize_host dns salt m rec.host).1,
          referrer := (anonymize_referrer isSE isNonSE qkeys rec.referrer).1 }),
       (anonymize_host dns salt m rec.host).2.1,
       (anonymize_host dns salt m rec.host).2.2) := by
  refine ⟨parseLogLine_sound cs rec hp, ?_⟩
  cases dfilter with
  | none => simp [processLine, hp, emitRecord]
  | some fl => simp [processLine, hp, hkeep fl rfl, emitRecord]

/-- Witness for C9 on a concrete line with no date filter. -/
theorem frame_property_witness :
    String.mk "h - - [t] \"r\" 200 5 \"http://e/x?a=1\" \"UA\"".data =
      formatLine ⟨"h", "-", "-", "t", "r", "200", "5", "http://e/x?a=1", "UA"⟩ ∧
    processLine ⟨fun _ => none, fun _ => none⟩ "s" (fun _ => false) (fun _ => false) []
        none host_map0 "h - - [t] \"r\" 200 5 \"http://e/x?a=1\" \"UA\"".data =
      (.emitted (formatLine
        { (⟨"h", "-", "-", "t", "r", "200", "5", "http://e/x?a=1", "UA"⟩ : LogRecord) with
          host := (anonymize_host ⟨fun _ => none, fun _ => none⟩ "s" host_map0 "h").1,
          referrer := (anonymize_referrer (fun _ => false) (fun _ => false) []
            "http://e/x?a=1").1 }),
       (anonymize_host ⟨fun _ => none, fun _ => none⟩ "s" host_map0 "h").2.1,
       (anonymize_host ⟨fun _ => none, fun _ => none⟩ "s" host_map0 "h").2.2) :=
  frame_property ⟨fun _ => none, fun _ => none⟩ "s" (fun _ => false) (fun _ => false) []
    none host_map0 "h - - [t] \"r\" 200 5 \"http://e/x?a=1\" \"UA\"".data
    ⟨"h", "-", "-", "t", "r", "200", "5", "http://e/x?a=1", "UA"⟩
    (by decide) (fun fl hfl => by cases hfl)

/-! ## Claim-side IP-literal grammars (C5)

The claim describes the accepted IPv4 tokens as four dot-separated
decimal octets, each in 0–255 with no other syntax (no leading zeros,
per the grammar), and the accepted IPv6 tokens as eight colon-separated
hex groups or a single `::` compression with up to six explicit groups
on either side.  The definitions below state these languages by
decomposition, independently of the scanning matchers, and the theorems
prove the two formulations equivalent. -/

/-- Value of a single decimal digit character. -/
def dv (c : Char) : Nat := c.toNat - 48

/-- Value of a decimal numeral, by left-to-right folding. -/
def decVal (cs : List Char) : Nat := cs.foldl (fun n c => 10 * n + dv c) 0

/-- Claim-side decimal octet: a nonempty digit string, no leading zero
unless it is the single digit, value at most 255. -/
def octetP (cs : List Char) : Prop :=
  cs ≠ [] ∧ (∀ c ∈ cs, c ∈ d09) ∧ (cs.length = 1 ∨ cs.head? ≠ some '0') ∧ decVal cs ≤ 255

instance (cs : List Char) : Decidable (octetP cs) := by
  unfold octetP
  infer_instance

/-- Claim-side IPv4 literal: four dot-separated octets and nothing
else. -/
def IPv4Prop (s : String) : Prop :=
  ∃ a b c d : List Char, octetP a ∧ octetP b ∧ octetP c ∧ octetP d ∧
    s.data = a ++ '.' :: b ++ '.' :: c ++ '.' :: d

theorem dv_le9 (c : Char) (h : c ∈ d09) : dv c ≤ 9 := by
  fin_cases h <;> decide

theorem dv_ge1 (c : Char) (h : c ∈ d09) (h0 : c ≠ '0') : 1 ≤ dv c := by
  fin_cases h <;> revert h0 <;> decide

theorem d19_of_d09_ne0 (c : Char) (h : c ∈ d09) (h0 : c ≠ '0') : c ∈ d19 := by
  fin_cases h <;> revert h0 <;> decide

theorem d09_of_d19 (c : Char) (h : c ∈ d19) : c ∈ d09 := d19_sub_d09 c h

theorem ne0_of_d19 (c : Char) (h : c ∈ d19) : c ≠ '0' := by
  fin_cases h <;> decide

theorem dv_eq1 (c : Char) (h : c ∈ d09) (h1 : dv c = 1) : c = '1' := by
  fin_cases h <;> revert h1 <;> decide

theorem dv_eq2 (c : Char) (h : c ∈ d09) (h1 : dv c = 2) : c = '2' := by
  fin_cases h <;> revert h1 <;> decide

theorem dv_eq5 (c : Char) (h : c ∈ d09) (h1 : dv c = 5) : c = '5' := by
  fin_cases h <;> revert h1 <;> decide

theorem d04_iff (c : Char) (h : c ∈ d09) : c ∈ d04 ↔ dv c ≤ 4 := by
  fin_cases h <;> decide

theorem d05_iff (c : Char) (h : c ∈ d09) : c ∈ d05 ↔ dv c ≤ 5 := by
  fin_cases h <;> decide

theorem d04_sub_d09 (c : Char) (h : c ∈ d04) : c ∈ d09 := by
  fin_cases h <;> decide

theorem d05_sub_d09 (c : Char) (h : c ∈ d05) : c ∈ d09 := by
  fin_cases h <;> decide

theorem dv_one : dv '1' = 1 := rfl

theorem dv_two : dv '2' = 2 := rfl

theorem dv_five : dv '5' = 5 := rfl

theorem decVal_single (c : Char) : decVal [c] = dv c := by
  simp [decVal]

theorem decVal_pair (c1 c2 : Char) : decVal [c1, c2] = 10 * dv c1 + dv c2 := by
  simp [decVal]

theorem decVal_triple (c1 c2 c3 : Char) :
    decVal [c1, c2, c3] = 100 * dv c1 + 10 * dv c2 + dv c3 := by
  simp [decVal]
  ring

theorem decFold_ge (cs : List Char) (n : Nat) :
    cs.foldl (fun n c => 10 * n + dv c) n ≥ n * 10 ^ cs.length := by
  induction cs generalizing n with
  | nil => simp
  | cons c cs ih =>
    calc (c :: cs).foldl (fun n c => 10 * n + dv c) n
        = cs.foldl (fun n c => 10 * n + dv c) (10 * n + dv c) := rfl
      _ ≥ (10 * n + dv c) * 10 ^ cs.length := ih (10 * n + dv c)
      _ ≥ (10 * n) * 10 ^ cs.length := Nat.mul_le_mul_right _ (by omega)
      _ = n * 10 ^ (cs.length + 1) := by ring
      _ = n * 10 ^ (c :: cs).length := by rw [List.length_cons]

/-- A no-leading-zero digit string of four or more characters exceeds
255. -/
theorem decVal_long (c : Char) (cs : List Char) (hd : c ∈ d09) (h0 : c ≠ '0')
    (hlen : 3 ≤ cs.length) : 255 < decVal (c :: cs) := by
  have h1 : 1 ≤ dv c := dv_ge1 c hd h0
  have h2 : decVal (c :: cs) ≥ dv c * 10 ^ cs.length := by
    have := decFold_ge cs (dv c)
    simpa [decVal] using this
  have h3 : (10 : Nat) ^ 3 ≤ 10 ^ cs.length := Nat.pow_le_pow_right (by omega) hlen
  have h4 : dv c * 10 ^ cs.length ≥ 1 * 10 ^ 3 :=
    Nat.mul_le_mul h1 h3
  omega

/-- Equivalence of the transcribed octet alternation and the claim-side
octet description. -/
theorem isOctet_iff (cs : List Char) : isOctet cs = true ↔ octetP cs := by
  match cs with
  | [] => simp [isOctet, octetP]
  | [c] =>
    simp only [isOctet, chIn_iff, octetP]
    constructor
    · intro h
      refine ⟨by simp, by simpa using h, Or.inl rfl, ?_⟩
      rw [decVal_single]
      have := dv_le9 c h
      omega
    · intro ⟨_, hall, _, _⟩
      exact hall c (by simp)
  | [c1, c2] =>
    simp only [isOctet, Bool.and_eq_true, chIn_iff, octetP]
    constructor
    · intro ⟨h1, h2⟩
      have h19 := d09_of_d19 c1 h1
      refine ⟨by simp, ?_, Or.inr ?_, ?_⟩
      · simp only [List.forall_mem_cons]
        exact ⟨h19, by simpa using h2, by simp⟩
      · simpa using ne0_of_d19 c1 h1
      · rw [decVal_pair]
        have := dv_le9 c1 h19
        have := dv_le9 c2 (by simpa using h2)
        omega
    · intro ⟨_, hall, hz, _⟩
      have hc1 : c1 ∈ d09 := hall c1 (by simp)
      have hc2 : c2 ∈ d09 := hall c2 (by simp)
      rcases hz with hz | hz
      · simp at hz
      · exact ⟨d19_of_d09_ne0 c1 hc1 (by simpa using hz), hc2⟩
  | [c1, c2, c3] =>
    simp only [isOctet, Bool.or_eq_true, Bool.and_eq_true, beq_iff_eq, chIn_iff, octetP]
    constructor
    · intro h
      rcases h with (⟨⟨h1, h2⟩, h3⟩ | ⟨⟨h1, h2⟩, h3⟩) | ⟨⟨h1, h2⟩, h3⟩
      · subst h1
        refine ⟨by simp, ?_, Or.inr (by simp), ?_⟩
        · simp only [List.forall_mem_cons]
          exact ⟨by decide, h2, h3, by simp⟩
        · rw [decVal_triple, dv_one]
          have := dv_le9 c2 h2
          have := dv_le9 c3 h3
          omega
      · subst h1
        have hd2 : c2 ∈ d09 := d04_sub_d09 c2 h2
        refine ⟨by simp, ?_, Or.inr (by simp), ?_⟩
        · simp only [List.forall_mem_cons]
          exact ⟨by decide, hd2, h3, by simp⟩
        · rw [decVal_triple, dv_two]
          have hle4 := (d04_iff c2 hd2).mp h2
          have := dv_le9 c3 h3
          omega
      · subst h1
        subst h2
        have hd3 : c3 ∈ d09 := d05_sub_d09 c3 h3
        refine ⟨by simp, ?_, Or.inr (by simp), ?_⟩
        · simp only [List.forall_mem_cons]
          exact ⟨by decide, by decide, hd3, by simp⟩
        · rw [decVal_triple, dv_two, dv_five]
          have hle5 := (d05_iff c3 hd3).mp h3
          omega
    · intro ⟨_, hall, hz, hval⟩
      have hc1 : c1 ∈ d09 := hall c1 (by simp)
      have hc2 : c2 ∈ d09 := hall c2 (by simp)
      have hc3 : c3 ∈ d09 := hall c3 (by simp)
      have h0 : c1 ≠ '0' := by
        rcases hz with hz | hz
        · simp at hz
        · simpa using hz
      rw [decVal_triple] at hval
      have h1 := dv_ge1 c1 hc1 h0
      have h2 := dv_le9 c2 hc2
      have h3 := dv_le9 c3 hc3
      have hd1 : dv c1 = 1 ∨ dv c1 = 2 := by omega
      rcases hd1 with hd1 | hd1
      · exact Or.inl (Or.inl ⟨⟨dv_eq1 c1 hc1 hd1, hc2⟩, hc3⟩)
      · have hc1' : c1 = '2' := dv_eq2 c1 hc1 hd1
        rw [hd1] at hval
        have hd2 : dv c2 ≤ 4 ∨ dv c2 = 5 := by omega
        rcases hd2 with hd2 | hd2
        · exact Or.inl (Or.inr ⟨⟨hc1', (d04_iff c2 hc2).mpr hd2⟩, hc3⟩)
        · have hc2' : c2 = '5' := dv_eq5 c2 hc2 hd2
          rw [hd2] at hval
          have hd3 : dv c3 ≤ 5 := by omega
          exact Or.inr ⟨⟨hc1', hc2'⟩, (d05_iff c3 hc3).mpr hd3⟩
  | c1 :: c2 :: c3 :: c4 :: rest =>
    simp only [isOctet, octetP]
    constructor
    · intro h
      cases h
    · intro ⟨_, hall, hz, hval⟩
      exfalso
      have hc1 : c1 ∈ d09 := hall c1 (by simp)
      have h0 : c1 ≠ '0' := by
        rcases hz with hz | hz
        · simp at hz
        · simpa using hz
      have := decVal_long c1 (c2 :: c3 :: c4 :: rest) hc1 h0 (by simp)
      omega

/-- Join of parts with a single separator between consecutive parts
(the inverse of `splitChar`). -/
def joinSep (sep : Char) : List (List Char) → List Char
  | [] => []
  | [p] => p
  | p :: ps => p ++ sep :: joinSep sep ps

theorem splitChar_cons (sep c : Char) (cs : List Char) :
    splitChar sep (c :: cs) =
      if c = sep then [] :: splitChar sep cs
      else
        match splitChar sep cs with
        | [] => [[c]]
        | h :: t => (c :: h) :: t := rfl

theorem joinSep_splitChar (sep : Char) (cs : List Char) :
    joinSep sep (splitChar sep cs) = cs := by
  induction cs with
  | nil => rfl
  | cons c cs ih =>
    unfold splitChar
    by_cases hc : c = sep
    · rw [if_pos hc]
      cases hr : splitChar sep cs with
      | nil => exact absurd hr (splitChar_ne_nil sep cs)
      | cons h t =>
        rw [hr] at ih
        show sep :: joinSep sep (h :: t) = c :: cs
        rw [hc, ih]
    · rw [if_neg hc]
      cases hr : splitChar sep cs with
      | nil => exact absurd hr (splitChar_ne_nil sep cs)
      | cons h t =>
        rw [hr] at ih
        cases t with
        | nil => exact congrArg (fun x => c :: x) ih
        | cons h2 t2 =>
          show c :: (h ++ sep :: joinSep sep (h2 :: t2)) = c :: cs
          rw [← ih]
          rfl

theorem splitChar_append (sep : Char) (p l : List Char) (hp : sep ∉ p) :
    splitChar sep (p ++ l) =
      (p ++ (splitChar sep l).headD []) :: (splitChar sep l).tail := by
  induction p with
  | nil =>
    simp only [List.nil_append]
    cases hr : splitChar sep l with
    | nil => exact absurd hr (splitChar_ne_nil sep l)
    | cons h t => simp
  | cons c p ih =>
    have hc : c ≠ sep := by
      intro hcc
      exact hp (hcc ▸ List.mem_cons_self c p)
    show splitChar sep (c :: (p ++ l)) = _
    rw [splitChar_cons, if_neg hc]
    rw [ih (fun hmem => hp (List.mem_cons_of_mem c hmem))]
    cases hr : splitChar sep l with
    | nil => exact absurd hr (splitChar_ne_nil sep l)
    | cons h t => simp

theorem splitChar_joinSep (sep : Char) (parts : List (List Char)) (hne : parts ≠ [])
    (hfree : ∀ p ∈ parts, sep ∉ p) :
    splitChar sep (joinSep sep parts) = parts := by
  induction parts with
  | nil => exact absurd rfl hne
  | cons p ps ih =>
    cases ps with
    | nil =>
      show splitChar sep p = [p]
      have h := splitChar_append sep p [] (hfree p (by simp))
      rw [List.append_nil] at h
      rw [h]
      simp [splitChar]
    | cons q qs =>
      show splitChar sep (p ++ sep :: joinSep sep (q :: qs)) = p :: q :: qs
      rw [splitChar_append sep p _ (hfree p (by simp))]
      have hsp : splitChar sep (sep :: joinSep sep (q :: qs)) =
          [] :: splitChar sep (joinSep sep (q :: qs)) := by
        rw [splitChar_cons, if_pos rfl]
      rw [hsp, ih (by simp) (fun x hx => hfree x (List.mem_cons_of_mem p hx))]
      simp

/-! ## Location of the `"::"` in a compressed IPv6 literal -/

theorem findSubAux_colon_skip (g : List Char) (hg : ':' ∉ g) (X : List Char) (i : Nat) :
    findSubAux [':', ':'] (g ++ X) i = findSubAux [':', ':'] X (i + g.length) := by
  induction g generalizing i with
  | nil => simp
  | cons c g ih =>
    have hc : c ≠ ':' := by
      intro hcc
      exact hg (hcc ▸ List.mem_cons_self c g)
    show findSubAux [':', ':'] (c :: (g ++ X)) i = _
    conv_lhs => unfold findSubAux
    have hnp : ([':', ':'].isPrefixOf (c :: (g ++ X))) ≠ true := by
      intro hcontra
      simp only [List.isPrefixOf, Bool.and_eq_true, beq_iff_eq] at hcontra
      exact hc hcontra.1.symm
    rw [if_neg hnp]
    rw [ih (fun hm => hg (List.mem_cons_of_mem c hm)) (i + 1)]
    have harith : i + 1 + g.length = i + (c :: g).length := by
      simp only [List.length_cons]
      omega
    rw [harith]

theorem findSubAux_join_colons (l : List (List Char))
    (hl : ∀ g ∈ l, g ≠ [] ∧ ':' ∉ g) (K : List Char) (i : Nat) :
    findSubAux [':', ':'] (joinSep ':' l ++ ':' :: ':' :: K) i =
      some (i + (joinSep ':' l).length) := by
  induction l generalizing i with
  | nil =>
    show findSubAux [':', ':'] (':' :: ':' :: K) i = some (i + 0)
    unfold findSubAux
    rw [if_pos (by simp [List.isPrefixOf])]
    rw [Nat.add_zero]
  | cons g gs ih =>
    obtain ⟨hgne, hgfree⟩ := hl g (by simp)
    cases gs with
    | nil =>
      show findSubAux [':', ':'] (g ++ ':' :: ':' :: K) i = some (i + g.length)
      rw [findSubAux_colon_skip g hgfree _ i]
      unfold findSubAux
      rw [if_pos (by simp [List.isPrefixOf])]
    | cons g2 gs2 =>
      obtain ⟨hg2ne, hg2free⟩ := hl g2 (by simp)
      obtain ⟨c2, g2', rfl⟩ : ∃ c2 g2', g2 = c2 :: g2' := by
        cases g2 with
        | nil => exact absurd rfl hg2ne
        | cons a b => exact ⟨a, b, rfl⟩
      have hc2 : c2 ≠ ':' := by
        intro hcc
        exact hg2free (hcc ▸ List.mem_cons_self c2 g2')
      obtain ⟨t2, ht2⟩ : ∃ t2, joinSep ':' ((c2 :: g2') :: gs2) = c2 :: t2 := by
        cases gs2 with
        | nil => exact ⟨g2', rfl⟩
        | cons q qs => exact ⟨g2' ++ ':' :: joinSep ':' (q :: qs), rfl⟩
      show findSubAux [':', ':']
          ((g ++ ':' :: joinSep ':' ((c2 :: g2') :: gs2)) ++ ':' :: ':' :: K) i = _
      rw [List.append_assoc]
      rw [findSubAux_colon_skip g hgfree _ i]
      show findSubAux [':', ':']
          (':' :: (joinSep ':' ((c2 :: g2') :: gs2) ++ ':' :: ':' :: K)) (i + g.length) = _
      unfold findSubAux
      have hnp : ([':', ':'].isPrefixOf
          (':' :: (joinSep ':' ((c2 :: g2') :: gs2) ++ ':' :: ':' :: K))) ≠ true := by
        rw [ht2]
        intro hcontra
        simp only [List.cons_append, List.isPrefixOf, Bool.and_eq_true, beq_iff_eq] at hcontra
        exact hc2 hcontra.2.1.symm
      rw [if_neg hnp]
      rw [ih (fun x hx => hl x (List.mem_cons_of_mem g hx)) (i + g.length + 1)]
      congr 1
      show i + g.length + 1 + (joinSep ':' ((c2 :: g2') :: gs2)).length =
        i + (g ++ ':' :: joinSep ':' ((c2 :: g2') :: gs2)).length
      simp only [List.length_append, List.length_cons]
      omega

theorem findSubAux_prefix (pat l : List Char) (i j : Nat)
    (h : findSubAux pat l i = some j) : pat.isPrefixOf (l.drop (j - i)) = true := by
  induction l generalizing i with
  | nil =>
    unfold findSubAux at h
    by_cases hp : pat.isEmpty = true
    · rw [if_pos hp] at h
      cases h
      rw [List.isEmpty_iff] at hp
      subst hp
      simp [List.isPrefixOf]
    · rw [if_neg hp] at h
      cases h
  | cons c cs ih =>
    unfold findSubAux at h
    by_cases hpre : pat.isPrefixOf (c :: cs) = true
    · rw [if_pos hpre] at h
      cases h
      simpa using hpre
    · rw [if_neg hpre] at h
      have hpne : pat ≠ [] := by
        intro hp
        subst hp
        simp [List.isPrefixOf] at hpre
      have hij : i + 1 ≤ j := (findSubAux_bound pat cs (i + 1) j hpne h).1
      have htail := ih (i + 1) h
      rw [show j - i = (j - (i + 1)) + 1 by omega]
      rw [List.drop_succ_cons]
      exact htail

/-! ## Claim-side IPv6 grammar and the equivalences -/

/-- Claim-side hex group: `0`, or one to four lowercase hex digits with
no leading zero. -/
def hexGroupP (g : List Char) : Prop :=
  g = ['0'] ∨ ∃ c t, g = c :: t ∧ c ∈ hexLowNZ ∧ t.length ≤ 3 ∧ ∀ x ∈ t, x ∈ hexLow

theorem isGroup_iff (g : List Char) : isGroup g = true ↔ hexGroupP g := by
  cases g with
  | nil => simp [isGroup, hexGroupP]
  | cons c rest =>
    simp only [isGroup, Bool.or_eq_true, Bool.and_eq_true, beq_iff_eq, chIn_iff,
      List.isEmpty_iff, decide_eq_true_eq, List.all_eq_true, hexGroupP]
    constructor
    · rintro (⟨rfl, rfl⟩ | ⟨⟨h1, h2⟩, h3⟩)
      · exact Or.inl rfl
      · exact Or.inr ⟨c, rest, rfl, h1, h2, fun x hx => by simpa using h3 x hx⟩
    · rintro (h | ⟨c', t', heq, h1, h2, h3⟩)
      · rw [List.cons_eq_cons] at h
        exact Or.inl ⟨h.1, h.2⟩
      · rw [List.cons_eq_cons] at heq
        obtain ⟨rfl, rfl⟩ := heq
        exact Or.inr ⟨⟨h1, h2⟩, fun x hx => by simpa using h3 x hx⟩

theorem hexLowNZ_ne_colon (c : Char) (h : c ∈ hexLowNZ) : c ≠ ':' := by
  fin_cases h <;> decide

theorem hexLow_ne_colon (c : Char) (h : c ∈ hexLow) : c ≠ ':' := by
  fin_cases h <;> decide

theorem hexGroupP_shape (g : List Char) (h : hexGroupP g) : g ≠ [] ∧ ':' ∉ g := by
  rcases h with rfl | ⟨c, t, rfl, h1, _, h3⟩
  · exact ⟨by simp, by decide⟩
  · refine ⟨by simp, ?_⟩
    intro hmem
    rcases List.mem_cons.mp hmem with hcc | hmem
    · exact hexLowNZ_ne_colon c h1 hcc.symm
    · exact hexLow_ne_colon ':' (h3 ':' hmem) rfl

theorem d09_ne_dot (c : Char) (h : c ∈ d09) : c ≠ '.' := by
  fin_cases h <;> decide

theorem joinSep_four (sep : Char) (a b c d : List Char) :
    joinSep sep [a, b, c, d] = a ++ sep :: (b ++ sep :: (c ++ sep :: d)) := by
  simp [joinSep]

/-- Equivalence of the transcribed IPv4 matcher and the claim-side
four-octet decomposition. -/
theorem isIPv4_iff (s : String) : isIPv4 s = true ↔ IPv4Prop s := by
  constructor
  · intro h
    unfold isIPv4 at h
    split at h
    case _ a b c d heq =>
      simp only [Bool.and_eq_true] at h
      obtain ⟨⟨⟨ha, hb⟩, hc⟩, hd⟩ := h
      refine ⟨a, b, c, d, (isOctet_iff a).mp ha, (isOctet_iff b).mp hb,
        (isOctet_iff c).mp hc, (isOctet_iff d).mp hd, ?_⟩
      rw [← joinSep_splitChar '.' s.data, heq]
      simp [joinSep]
    case _ => cases h
  · rintro ⟨a, b, c, d, ha, hb, hc, hd, heq⟩
    unfold isIPv4
    rw [heq]
    have hassoc : a ++ '.' :: b ++ '.' :: c ++ '.' :: d = joinSep '.' [a, b, c, d] := by
      simp [joinSep]
    rw [hassoc]
    have hfree : ∀ p ∈ [a, b, c, d], '.' ∉ p := by
      intro p hp hdot
      have hdig : ∀ x ∈ p, x ∈ d09 := by
        rcases List.mem_cons.mp hp with rfl | hp
        · exact ha.2.1
        · rcases List.mem_cons.mp hp with rfl | hp
          · exact hb.2.1
          · rcases List.mem_cons.mp hp with rfl | hp
            · exact hc.2.1
            · rcases List.mem_cons.mp hp with rfl | hp
              · exact hd.2.1
              · cases hp
      exact d09_ne_dot '.' (hdig '.' hdot) rfl
    rw [splitChar_joinSep '.' [a, b, c, d] (by simp) hfree]
    simp only [Bool.and_eq_true]
    exact ⟨⟨⟨(isOctet_iff a).mpr ha, (isOctet_iff b).mpr hb⟩, (isOctet_iff c).mpr hc⟩,
      (isOctet_iff d).mpr hd⟩

/-- Claim-side full 8-group IPv6 form. -/
def IPv6FullP (cs : List Char) : Prop :=
  ∃ gs : List (List Char), gs.length = 8 ∧ (∀ g ∈ gs, hexGroupP g) ∧ cs = joinSep ':' gs

/-- Claim-side compressed IPv6 form: a single `::` with zero to six
explicit colon-joined groups on each side. -/
def IPv6CompP (cs : List Char) : Prop :=
  ∃ l r : List (List Char), l.length ≤ 6 ∧ r.length ≤ 6 ∧
    (∀ g ∈ l, hexGroupP g) ∧ (∀ g ∈ r, hexGroupP g) ∧
    cs = joinSep ':' l ++ ':' :: ':' :: joinSep ':' r

theorem isIPv6Full_iff (cs : List Char) : isIPv6Full cs = true ↔ IPv6FullP cs := by
  unfold isIPv6Full IPv6FullP
  simp only [Bool.and_eq_true, beq_iff_eq, List.all_eq_true]
  constructor
  · intro ⟨hlen, hall⟩
    exact ⟨splitChar ':' cs, hlen, fun g hg => (isGroup_iff g).mp (hall g hg),
      (joinSep_splitChar ':' cs).symm⟩
  · rintro ⟨gs, hlen, hall, rfl⟩
    have hfree : ∀ p ∈ gs, ':' ∉ p := fun p hp => (hexGroupP_shape p (hall p hp)).2
    rw [splitChar_joinSep ':' gs (by intro hg; rw [hg] at hlen; cases hlen) hfree]
    exact ⟨hlen, fun g hg => (isGroup_iff g).mpr (hall g hg)⟩

theorem sideOK_to_groups (x : List Char) (h : sideOK x = true) :
    ∃ l : List (List Char), x = joinSep ':' l ∧ l.length ≤ 6 ∧
      ∀ g ∈ l, hexGroupP g := by
  unfold sideOK at h
  rw [Bool.or_eq_true] at h
  rcases h with h | h
  · rw [List.isEmpty_iff] at h
    exact ⟨[], by simp [h, joinSep], by simp, by simp⟩
  · simp only [Bool.and_eq_true, decide_eq_true_eq, List.all_eq_true] at h
    exact ⟨splitChar ':' x, (joinSep_splitChar ':' x).symm, h.1,
      fun g hg => (isGroup_iff g).mp (h.2 g hg)⟩

theorem sideOK_of_groups (l : List (List Char)) (h6 : l.length ≤ 6)
    (hall : ∀ g ∈ l, hexGroupP g) : sideOK (joinSep ':' l) = true := by
  unfold sideOK
  rw [Bool.or_eq_true]
  cases l with
  | nil => left; rfl
  | cons g gs =>
    right
    rw [splitChar_joinSep ':' (g :: gs) (by simp)
      (fun p hp => (hexGroupP_shape p (hall p hp)).2)]
    simp only [Bool.and_eq_true, decide_eq_true_eq, List.all_eq_true]
    exact ⟨h6, fun g hg => (isGroup_iff g).mpr (hall g hg)⟩

theorem isIPv6Comp_iff (cs : List Char) : isIPv6Comp cs = true ↔ IPv6CompP cs := by
  constructor
  · intro h
    unfold isIPv6Comp at h
    cases hf : findSub cs [':', ':'] 0 with
    | none => rw [hf] at h; cases h
    | some p =>
      rw [hf] at h
      rw [Bool.and_eq_true] at h
      obtain ⟨hL, hR⟩ := h
      have hpre : [':', ':'].isPrefixOf (cs.drop p) = true := by
        have hx := findSubAux_prefix [':', ':'] cs 0 p (by simpa [findSub] using hf)
        simpa using hx
      have hdec : cs = cs.take p ++ ':' :: ':' :: cs.drop (p + 2) := by
        obtain ⟨t, ht⟩ := List.isPrefixOf_iff_prefix.mp hpre
        have h2 : cs.drop (p + 2) = t := by
          have hx : (cs.drop p).drop 2 = t := by
            rw [← ht]
            rfl
          rw [← hx, List.drop_drop, Nat.add_comm]
        have ht' : ':' :: ':' :: t = List.drop p cs := ht
        rw [h2, ht']
        exact (List.take_append_drop p cs).symm
      obtain ⟨l, hxl, hl6, hlg⟩ := sideOK_to_groups _ hL
      obtain ⟨r, hxr, hr6, hrg⟩ := sideOK_to_groups _ hR
      exact ⟨l, r, hl6, hr6, hlg, hrg, by rw [hdec, hxl, hxr]⟩
  · rintro ⟨l, r, hl6, hr6, hlg, hrg, rfl⟩
    unfold isIPv6Comp
    have hshape : ∀ g ∈ l, g ≠ [] ∧ ':' ∉ g := fun g hg => hexGroupP_shape g (hlg g hg)
    have hfind : findSub (joinSep ':' l ++ ':' :: ':' :: joinSep ':' r) [':', ':'] 0 =
        some (joinSep ':' l).length := by
      unfold findSub
      rw [List.drop_zero]
      simpa using findSubAux_join_colons l hshape (joinSep ':' r) 0
    rw [hfind]
    rw [Bool.and_eq_true]
    constructor
    · rw [List.take_left]
      exact sideOK_of_groups l hl6 hlg
    · have hdrop : (joinSep ':' l ++ ':' :: ':' :: joinSep ':' r).drop
          ((joinSep ':' l).length + 2) = joinSep ':' r := by
        rw [← List.drop_drop]
        rw [List.drop_left]
        rfl
      rw [hdrop]
      exact sideOK_of_groups r hr6 hrg

/-- Claim-side IPv6 literal. -/
def IPv6Prop (s : String) : Prop := IPv6FullP s.data ∨ IPv6CompP s.data

theorem isIPv6_iff (s : String) : isIPv6 s = true ↔ IPv6Prop s := by
  unfold isIPv6 IPv6Prop
  rw [Bool.or_eq_true, isIPv6Full_iff, isIPv6Comp_iff]

/-- For an uncached token the DNS trace is a single call, reverse when
the token matches one of the two IP regexes and forward otherwise,
whatever the oracle answers. -/
theorem anonymize_host_trace (dns : DNS) (salt : String) (m : HostMap) (h : String)
    (hm : mapFind m h = none) :
    (anonymize_host dns salt m h).2.2 =
      if isIPv4 h || isIPv6 h then [DnsCall.reverse h] else [DnsCall.forward h] := by
  simp only [anonymize_host, hm]
  by_cases hb : (isIPv4 h || isIPv6 h) = true
  · rw [if_pos hb, if_pos hb]
    cases hr : dns.reverse h with
    | none => rfl
    | some x =>
      rcases x with ⟨hn, al, il⟩
      rfl
  · rw [if_neg hb, if_neg hb]
    cases hf : dns.forward h with
    | none => rfl
    | some addrs => rfl

/-- C5: for every token absent from the cache, `anonymize_host` issues a
reverse lookup exactly when the token is an IPv4 literal (four
dot-separated decimal octets, each 0-255, nothing else) or an IPv6
literal (full 8-group colon-hex form, or a single `::` with at most six
explicit colon-joined groups on each side), and issues a forward lookup
(hostname treatment) exactly otherwise. -/
theorem ip_literal_classification (dns : DNS) (salt : String) (m : HostMap)
    (h : String) (hm : mapFind m h = none) :
    ((anonymize_host dns salt m h).2.2 = [DnsCall.reverse h] ↔
      IPv4Prop h ∨ IPv6Prop h) ∧
    ((anonymize_host dns salt m h).2.2 = [DnsCall.forward h] ↔
      ¬(IPv4Prop h ∨ IPv6Prop h)) := by
  rw [anonymize_host_trace dns salt m h hm]
  by_cases hb : (isIPv4 h || isIPv6 h) = true
  · have hp : IPv4Prop h ∨ IPv6Prop h := by
      rw [Bool.or_eq_true] at hb
      rcases hb with h4 | h6
      · exact Or.inl ((isIPv4_iff h).mp h4)
      · exact Or.inr ((isIPv6_iff h).mp h6)
    rw [if_pos hb]
    constructor
    · exact ⟨fun _ => hp, fun _ => rfl⟩
    · constructor
      · intro hcontra
        simp at hcontra
      · intro hcontra
        exact absurd hp hcontra
  · have hp : ¬(IPv4Prop h ∨ IPv6Prop h) := by
      intro hc
      apply hb
      rw [Bool.or_eq_true]
      rcases hc with h4 | h6
      · exact Or.inl ((isIPv4_iff h).mpr h4)
      · exact Or.inr ((isIPv6_iff h).mpr h6)
    rw [if_neg hb]
    constructor
    · constructor
      · intro hcontra
        simp at hcontra
      · intro hx
        exact absurd hx hp
    · exact ⟨fun _ => hp, fun _ => rfl⟩

theorem ip_literal_classification_witness :
    (anonymize_host ⟨fun _ => none, fun _ => none⟩ "s" host_map0 "203.0.113.9").2.2 =
      [DnsCall.reverse "203.0.113.9"] ∧
    (anonymize_host ⟨fun _ => none, fun _ => none⟩ "s" host_map0 "www.example.org").2.2 =
      [DnsCall.forward "www.example.org"] := by
  constructor
  · exact (ip_literal_classification ⟨fun _ => none, fun _ => none⟩ "s" host_map0
      "203.0.113.9" (by decide)).1.mpr
      (Or.inl ⟨"203".data, "0".data, "113".data, "9".data, by decide, by decide,
        by decide, by decide, by decide⟩)
  · refine (ip_literal_classification ⟨fun _ => none, fun _ => none⟩ "s" host_map0
      "www.example.org" (by decide)).2.mpr ?_
    intro hc
    rcases hc with h4 | h6
    · exact absurd ((isIPv4_iff _).mpr h4) (by decide)
    · exact absurd ((isIPv6_iff _).mpr h6) (by decide)

end AnonLog
